import Mathlib

/-!
Verification development for the miSeqClonePicker core (the `state/` package
of the repository, which is the code imported by `main.py` and the UI).

Shallow embedding conventions:
* A spreadsheet cell (`Cell`) is a number, a string, or a blank.  Numeric
  cells are modelled as integers: every behaviour the development reasons
  about (the `cell in (0, 1)` indicator test, Python truthiness, header
  propagation) only distinguishes 0, 1, other numbers, strings and blanks.
* Python `dict`s are modelled as association lists (`List (key × value)`)
  in insertion order; `dict` lookup is `List.lookup` (keys are unique in
  every list that models an actual Python dict).
* Python `list.append` / `list.pop()` operate at the end of the list, so
  the undo/redo stacks keep their top at the END of the Lean list as well.
* Fallible Python code (KeyError, IndexError, ValueError, raised errors)
  is modelled with `Option` / `Except`.
* Floating point percentages (`pct`) are modelled as rationals; no claim
  computes with them, they are only carried and compared structurally.
-/

/-- A raw spreadsheet cell value, as produced by the external reader. -/
inductive Cell where
  | num (n : Int)
  | str (s : String)
  | blank
deriving DecidableEq, Repr

/-- `cell in (0, 1)` from `_grow_selection`: a cell is an indicator iff its
value is exactly 0 or 1. -/
def Cell.isIndicator : Cell → Bool
  | .num n => n == 0 || n == 1
  | _ => false

/-- Python truthiness of a cell value: nonzero number or nonempty string. -/
def Cell.truthy : Cell → Bool
  | .num n => n != 0
  | .str s => s != ""
  | .blank => false

/-- The string stored for a header cell (`str()`-like rendering; actual
header cells are strings, for which this is the identity). -/
def Cell.text : Cell → String
  | .num n => toString n
  | .str s => s
  | .blank => ""

/-- Decimal digits of a natural number, most significant first, with an
explicit fuel argument to keep the recursion structural (any fuel above the
number of digits gives the same answer; `n / 10` strictly decreases). -/
def natDigitsAux : Nat → Nat → List Char
  | 0, _ => []
  | fuel + 1, n =>
    if n < 10 then [Char.ofNat (48 + n)]
    else natDigitsAux fuel (n / 10) ++ [Char.ofNat (48 + n % 10)]

/-- Python `str(n)` for a natural number (`n` itself is always enough fuel). -/
def natStr (n : Nat) : String := ⟨natDigitsAux (n + 1) n⟩

/-- `common.column_label`: bijective base-26 spreadsheet column label
(1 ↦ "A", 26 ↦ "Z", 27 ↦ "AA"), fueled structurally (`(n-1)/26` strictly
decreases, so fuel `n` is always enough).  The Python function asserts
`number > 0`; on 0 the loop body never runs and the empty string results. -/
def columnLabelAux : Nat → Nat → List Char
  | 0, _ => []
  | fuel + 1, n =>
    if n = 0 then []
    else columnLabelAux fuel ((n - 1) / 26) ++ [Char.ofNat (65 + (n - 1) % 26)]

def column_label (n : Nat) : String := ⟨columnLabelAux n n⟩

/-- `common.clone_label`: `string.ascii_uppercase[n // 12] + str(n % 12 + 1)`.
Indexing `ascii_uppercase` (26 letters) raises `IndexError` when
`n / 12 ≥ 26`, i.e. when `n ≥ 312`; this is modelled by `none`. -/
def clone_label (n : Nat) : Option String :=
  if n / 12 < 26 then
    some (⟨[Char.ofNat (65 + n / 12)]⟩ ++ natStr (n % 12 + 1))
  else none

/-- Python `int(text)` restricted to digit strings (what `label_to_key`
feeds it): `none` models the `ValueError` on anything else. -/
def digitsToNat (l : List Char) : Option Nat :=
  if l ≠ [] ∧ l.all Char.isDigit then
    some (l.foldl (fun acc c => acc * 10 + (c.toNat - 48)) 0)
  else none

/-- `common.label_to_key`: split a clone label at its first digit and parse
the remainder as an integer; `ValueError` (no digit found, or the remainder
is not a number) is modelled by `none`. -/
def label_to_key (s : String) : Option (String × Nat) :=
  match s.data.findIdx? Char.isDigit with
  | none => none
  | some idx => (digitsToNat (s.data.drop idx)).map
      (fun n => (⟨(s.data.take idx).map Char.toUpper⟩, n))

/-! ## GridLocator (`state/samplesheet.py`: `_grow_selection`, `_locate_cells`) -/

/-- A table is a list of columns, each a list of cells (column-major). -/
abbrev Table := List (List Cell)

/-- `_Rect`: half-open on bottom/right. -/
structure Rect where
  top : Nat
  left : Nat
  bottom : Nat
  right : Nat
deriving DecidableEq, Repr

/-- Length of the contiguous run of indicator cells at the head of a column
slice (the inner loop of `_grow_selection`). -/
def runLength (cells : List Cell) : Nat :=
  (cells.takeWhile Cell.isIndicator).length

/-- The column loop of `_grow_selection`, over the columns
`table[column_idx:]`, carrying the running `width` and `height`. -/
def growGo (r : Nat) : List (List Cell) → Nat → Nat → Nat × Nat
  | [], w, h => (w, h)
  | col :: rest, w, h =>
    let cur := runLength (col.drop r)
    if cur = 0 ∨ cur < h then (w, h)
    else growGo r rest (w + 1) (min (if h = 0 then cur else h) cur)

/-- `_grow_selection(table, row_idx, column_idx)`. -/
def growSelection (table : Table) (r c : Nat) : Nat × Nat :=
  growGo r (table.drop c) 0 0

/-- The running best of `_locate_cells`: `none` while `best_row`/`best_column`
are still `None`, otherwise `(best_row, best_column, best_width, best_height)`. -/
abbrev Best := Option (Nat × Nat × Nat × Nat)

def bestArea : Best → Nat
  | none => 0
  | some (_, _, w, h) => w * h

/-- One step of the anchor scan: replace the best candidate only on a
strictly larger area.  The anchor is `(column, row)`. -/
def locStep (table : Table) (b : Best) (a : Nat × Nat) : Best :=
  let wh := growSelection table a.2 a.1
  if wh.1 * wh.2 > bestArea b then some (a.2, a.1, wh.1, wh.2) else b

/-- The outer column loop of `_locate_cells`, recursing structurally over
the suffix of still-unvisited columns (`suffix = table.drop c`, so
`len(table) - column_idx` is the suffix length), including the pruning
`break`: once `(remaining columns) * len(column) < best area`, the whole
search stops. -/
def locateGo (table : Table) : List (List Cell) → Nat → Best → Best
  | [], _, best => best
  | col :: rest, c, best =>
    if (rest.length + 1) * col.length < bestArea best then best
    else locateGo table rest (c + 1)
      (((List.range col.length).map (fun r => (c, r))).foldl (locStep table) best)

/-- `_locate_cells(table)`. -/
def locateCells (table : Table) : Option Rect :=
  match locateGo table table 0 none with
  | none => none
  | some (r, c, w, h) => some ⟨r, c, r + h, c + w⟩

/-- All anchors `(column, row)` of a column suffix starting at index `c`, in
the search order of `_locate_cells` (columns outer, rows inner). -/
def anchorsFrom : List (List Cell) → Nat → List (Nat × Nat)
  | [], _ => []
  | col :: rest, c =>
    ((List.range col.length).map (fun r => (c, r))) ++ anchorsFrom rest (c + 1)

def anchors (table : Table) : List (Nat × Nat) := anchorsFrom table 0

/-- The area grown from an anchor `(column, row)`. -/
def anchorArea (table : Table) (a : Nat × Nat) : Nat :=
  (growSelection table a.2 a.1).1 * (growSelection table a.2 a.1).2

/-! ## SampleSheet data model (`state/samplesheet.py`) -/

structure SplitGroup where
  user : Bool
  auto : Bool
deriving DecidableEq, Repr

/-- One sample-sheet column (`Knockout` in the source).  `headers` is the
per-column header dict in insertion order; `column` has one slot per grid
row, `none` where no clone occupies the row. -/
structure Knockout where
  headers : List (String × String)
  column : List (Option String)
  split : SplitGroup
  group : String
deriving DecidableEq, Repr

structure SampleSheet where
  knockouts : List Knockout
  headers : List String
  width : Nat
  height : Nat
  group_by : String
deriving DecidableEq, Repr

/-- The fixed header keys above the knockout grid. -/
def HEADERS : List String := ["extraction", "amplicon", "knockout"]

/-- Truthiness of a cell-label slot (`None` and `''` are falsy). -/
def optTruthy : Option String → Bool
  | some s => s ≠ ""
  | none => false

/-- `sum(map(bool, column))`: the number of occupied cells of a column. -/
def occCount (column : List (Option String)) : Nat :=
  (column.filter optTruthy).length

/-- `Option`-valued `List.map`: `some` iff `f` succeeds on every element
(the embedding of a Python loop that may raise). -/
def mapOption (f : α → Option β) : List α → Option (List β)
  | [] => some []
  | x :: xs =>
    match f x, mapOption f xs with
    | some y, some ys => some (y :: ys)
    | _, _ => none

/-- The relabelling loop of `_update_cell_labels`: `row` is the current row
index, `counter` the occupancy rank.  Occupied (truthy) slots are relabelled,
other slots are kept as they are; `clone_label` may fail (`IndexError`). -/
def updateLabelsGo (isVerification : Bool) :
    List (Option String) → Nat → Nat → Option (List (Option String))
  | [], _, _ => some []
  | v :: rest, row, counter =>
    if optTruthy v then
      match (if isVerification then some (natStr (row + 1)) else clone_label counter),
            updateLabelsGo isVerification rest (row + 1) (counter + 1) with
      | some lab, some out => some (some lab :: out)
      | _, _ => none
    else
      (updateLabelsGo isVerification rest (row + 1) counter).map (v :: ·)

/-- `_update_cell_labels(column, is_verification)`. -/
def update_cell_labels (column : List (Option String))
    (isVerification : Bool) : Option (List (Option String)) :=
  updateLabelsGo isVerification column 0 0

/-- The per-group set of occupied-cell counts (`cell_counts`, a Python set
modelled as a `Finset`), computed over columns whose (already reassigned)
`group` field equals `g`. -/
def groupCellCounts (ks : List Knockout) (g : String) : Finset Nat :=
  ((ks.filter (fun k => k.group == g)).map (fun k => occCount k.column)).toFinset

/-- `len(cell_counts[group] - set((0,))) > 1`. -/
def isVerificationGroup (ks : List Knockout) (g : String) : Bool :=
  1 < ((groupCellCounts ks g).erase 0).card

/-- `group_by(samplesheet, key)`.  First pass: assign each column's `group`
from `headers[key]` (KeyError if absent) and collect occupied-cell counts;
second pass: set the split flags and recompute cell labels. -/
def group_by (s : SampleSheet) (key : String) : Option SampleSheet :=
  match mapOption (fun k => (k.headers.lookup key).map
      (fun g => { k with group := g })) s.knockouts with
  | none => none
  | some ks =>
    match mapOption (fun k =>
        let iv := isVerificationGroup ks k.group
        (update_cell_labels k.column iv).map
          (fun col => { k with split := ⟨false, iv⟩, column := col })) ks with
    | none => none
    | some ks2 => some { s with knockouts := ks2, group_by := key }

/-- `set_user_split(samplesheet, group, value)`. -/
def set_user_split (s : SampleSheet) (group : String) (value : Bool) : SampleSheet :=
  { s with knockouts := s.knockouts.map (fun k =>
      if k.group == group then { k with split := { k.split with user := value } } else k) }

/-- `_group(knockout)`: the display-group label; KeyError (modelled by
`none`) if the column is split but has no `knockout` header. -/
def displayGroup (k : Knockout) : Option String :=
  if k.split.user || k.split.auto then
    match k.headers.lookup "knockout" with
    | none => none
    | some ko => some (if k.group ≠ ko then ko ++ " (" ++ k.group ++ ")" else k.group)
  else some k.group

/-- `get_group(samplesheet, group)`: the columns whose display group matches
(`none` if computing any display group raises). -/
def get_group (s : SampleSheet) (group : String) : Option (List Knockout) :=
  (mapOption (fun k => (displayGroup k).map (fun dg => (dg, k))) s.knockouts).map
    (fun tagged => (tagged.filter (fun p => p.1 == group)).map (·.2))

/-! ## LayoutAssembler (`state/samplesheet.py`: `load`, minus file reading) -/

inductive LoadErr where
  /-- `'Could not locate knockouts'`: no indicator rectangle found. -/
  | locate
  /-- `'Could not locate knockout names'`: no rows above the grid. -/
  | headerRows
  /-- a failure inside the final `group_by` call (e.g. `clone_label`). -/
  | labelling
deriving DecidableEq, Repr

/-- The header dict of one assembled column: for offsets 1..3 above the grid
(keys `knockout`, `amplicon`, `extraction`, most specific first), read the
cell when the row exists; a falsy value is replaced by the previous column's
value for the same key (left-to-right propagation), except in the first
column.  Finally the synthesized `id` header is appended. -/
def assembleHeaders (column : List Cell) (top : Nat) (columnIdx : Nat)
    (prev : Option (List (String × String))) : List (String × String) :=
  let keyed := (List.range HEADERS.length).filterMap (fun i =>
    let offset := i + 1
    let key := HEADERS.reverse.getD i ""
    if offset ≤ top then
      let cell := column.getD (top - offset) .blank
      let value :=
        match prev with
        | some ph => if cell.truthy then cell.text else (ph.lookup key).getD ""
        | none => cell.text
      some (key, value)
    else none)
  keyed ++ [("id", "[" ++ column_label (columnIdx + 1) ++ "] "
    ++ (keyed.lookup "knockout").getD "")]

/-- The column-assembly loop of `load`: for each table column in
`[left, right)`, build the header dict and the occupancy column. -/
def assembleKnockouts (table : Table) (cells : Rect) : List Knockout :=
  (List.range (cells.right - cells.left)).foldl
    (fun acc i =>
      let columnIdx := cells.left + i
      let column := table.getD columnIdx []
      let prev := (acc.getLast?).map Knockout.headers
      let headers := assembleHeaders column cells.top columnIdx prev
      acc ++ [{
        headers := headers,
        column := ((column.drop cells.top).take (cells.bottom - cells.top)).map
          (fun cell => if cell.truthy then some "DummyValue" else none),
        group := natStr columnIdx,
        split := ⟨false, false⟩ }]) []

/-- `load(filename)` with the file reading factored out: locate the grid,
check that header rows exist, assemble the columns, and pass the sheet
through `group_by` keyed on the most significant available header. -/
def assemble (table : Table) : Except LoadErr SampleSheet :=
  match locateCells table with
  | none => .error .locate
  | some cells =>
    if cells.top = 0 then .error .headerRows
    else
      let knockouts := assembleKnockouts table cells
      let sheet : SampleSheet := {
        knockouts := knockouts,
        headers := HEADERS.drop (3 - cells.top),
        width := knockouts.length,
        height := cells.bottom - (cells.top - 3),
        group_by := "id" }
      match group_by sheet (sheet.headers.getD 0 "") with
      | none => .error .labelling
      | some s => .ok s

/-! ## MiSeq output data model (`state/miseq.py`) -/

structure Peak where
  indel : Int
  inframe : Bool
  pct : Rat
deriving DecidableEq, Repr

structure Result where
  index : Nat
  reads : Int
  wt : Int
  indel : Int
  picked : Bool
  peaks : List Peak
  comment : String
  target : String
deriving DecidableEq, Repr

/-- `MiSeqOutput`: target name → (well index → Result), as nested dicts. -/
abbrev MiSeqOutput := List (String × List (Nat × Result))

/-! ## HistoryStore and TargetMapper (`state/core.py`: class `State`) -/

abbrev KOMapping := List (String × Option String)

/-- `_Snapshot`: the four value fields captured by `_store_state`. -/
structure Snapshot where
  samplesheet : SampleSheet
  miseq : MiSeqOutput
  ko_mapping : KOMapping
  default_ko_mapping : KOMapping
deriving DecidableEq, Repr

structure Clone where
  label : String
  comment : Option String
  knockouts : List (String × Option Result)
deriving DecidableEq, Repr

/-- The full `State` object.  The tops of `undo_history` / `redo_history`
are at the END of the lists, matching Python `append` / `pop`. -/
structure AppState where
  samplesheet : SampleSheet
  miseq : MiSeqOutput
  ko_mapping : KOMapping
  default_ko_mapping : KOMapping
  undo_history : List Snapshot
  redo_history : List Snapshot
  saved_state : Option Snapshot
deriving DecidableEq, Repr

/-- `State._store_state()`. -/
def storeState (st : AppState) : Snapshot :=
  ⟨st.samplesheet, st.miseq, st.ko_mapping, st.default_ko_mapping⟩

/-- `State._replace_state(state)`: install a snapshot's four fields. -/
def replaceState (st : AppState) (s : Snapshot) : AppState :=
  { st with samplesheet := s.samplesheet, miseq := s.miseq,
            ko_mapping := s.ko_mapping, default_ko_mapping := s.default_ko_mapping }

/-- `State._append_undo_history(state)`: clear redo, push onto undo. -/
def appendUndoHistory (st : AppState) (s : Snapshot) : AppState :=
  { st with redo_history := [], undo_history := st.undo_history ++ [s] }

/-- `State.undo()`: no-op when the undo stack is empty. -/
def undo (st : AppState) : AppState :=
  match st.undo_history.getLast? with
  | none => st
  | some s =>
    { replaceState st s with
        undo_history := st.undo_history.dropLast,
        redo_history := st.redo_history ++ [storeState st] }

/-- `State.redo()`: symmetric to `undo`. -/
def redo (st : AppState) : AppState :=
  match st.redo_history.getLast? with
  | none => st
  | some s =>
    { replaceState st s with
        redo_history := st.redo_history.dropLast,
        undo_history := st.undo_history ++ [storeState st] }

/-- `State.save_state(filename)` with the file write factored out. -/
def saveState (st : AppState) : AppState :=
  { st with saved_state := some (storeState st) }

/-- `State.is_saved()`: structural comparison against the saved marker. -/
def isSaved (st : AppState) : Bool :=
  st.saved_state == some (storeState st)

/-- `State.mapping_set(samplesheet, miseq)`: `none` models the KeyError on a
knockout name missing from the mapping.  A no-op call (unchanged value)
leaves the state untouched; otherwise the current snapshot is pushed and a
new mapping is built in which every value equal to the new target is cleared
and the knockout is bound to the target. -/
def mapping_set (st : AppState) (ss : String) (ms : Option String) : Option AppState :=
  match st.ko_mapping.lookup ss with
  | none => none
  | some cur =>
    if cur = ms then some st
    else
      let cleared := st.ko_mapping.map
        (fun p => (p.1, if p.2 = ms then none else p.2))
      let newMapping := cleared.map (fun p => if p.1 = ss then (p.1, ms) else p)
      some { appendUndoHistory st (storeState st) with ko_mapping := newMapping }

/-- Normalization used by the default-mapping inference:
`name.lower().replace(' ', '_')`, computed characterwise (lowering never
produces or removes a space, so lower-then-replace is charwise). -/
def normName (s : String) : List Char :=
  s.data.map (fun c => if c.toLower = ' ' then '_' else c.toLower)

/-- `a.startswith(b)` on character lists. -/
def startsWithL (l p : List Char) : Bool := l.take p.length == p

/-- The candidate scan of `_init_ko_mapping`: over the unused target pool,
keep the first prefix match, replaced only by strictly shorter ones. -/
def findCandidate (key : String) : List String → Option String → Option String
  | [], cand => cand
  | t :: rest, cand =>
    if startsWithL (normName t) (normName key) then
      findCandidate key rest
        (match cand with
         | none => some t
         | some c => if c.length > t.length then some t else some c)
    else findCandidate key rest cand

/-- `State._init_ko_mapping` as a function of the sorted knockout names and
the sequencing target names (the iteration order of the Python set of
targets is nondeterministic; it is taken here as the given list order).
Exact matches are assigned first and recorded as used; the second pass
searches the pool of targets that are not exact matches — prefix-matched
candidates are NOT added to the used set by the source. -/
def inferDefault (ssNames msNames : List String) : KOMapping :=
  let exact : KOMapping := ssNames.map
    (fun k => (k, if msNames.contains k then some k else none))
  let used := ssNames.filter (fun k => msNames.contains k)
  exact.map (fun p =>
    if p.2 = none ∨ p.2 = some "" then
      let pool := msNames.filter (fun t => ¬ used.contains t)
      match findCandidate p.1 pool none with
      | some c => (p.1, some c)
      | none => (p.1, p.2)
    else p)

/-! ## CloneAggregator (`state/core.py`: `State.clones_get_group`) -/

/-- Insert-or-update into an (insertion-ordered) dict. -/
def dictInsert (l : List (String × α)) (k : String) (v : α) : List (String × α) :=
  if l.any (fun p => p.1 == k) then
    l.map (fun p => if p.1 = k then (k, v) else p)
  else l ++ [(k, v)]

/-- `clones[key].knockouts[ss_target] = result`, creating the clone with an
empty comment on first sight of the label. -/
def addResult (clones : List Clone) (label name : String) (res : Option Result) :
    List Clone :=
  if clones.any (fun c => c.label == label) then
    clones.map (fun c =>
      if c.label = label then { c with knockouts := dictInsert c.knockouts name res }
      else c)
  else clones ++ [⟨label, none, [(name, res)]⟩]

/-- The row loop over one column: 1-based enumeration, only slots that are
not `None` contribute (`if key is not None`). -/
def processColumn (msColumn : List (Nat × Result)) (name : String) :
    List (Option String) → Nat → List Clone → List Clone
  | [], _, clones => clones
  | none :: rest, idx, clones => processColumn msColumn name rest (idx + 1) clones
  | some lab :: rest, idx, clones =>
      processColumn msColumn name rest (idx + 1)
        (addResult clones lab name (msColumn.lookup idx))

/-- Processing of one knockout of the group: the KeyErrors on a missing
mapping entry or a missing miseq target are modelled by `none`; a `null`
mapping uses an empty miseq column (`{}`). -/
def processKnockout (st : AppState) (clones : List Clone) (k : Knockout) :
    Option (List Clone) :=
  match k.headers.lookup "knockout" with
  | none => none
  | some name =>
    match st.ko_mapping.lookup name with
    | none => none
    | some msTarget =>
      match msTarget with
      | none => some (processColumn [] name k.column 1 clones)
      | some t =>
        match st.miseq.lookup t with
        | none => none
        | some msColumn => some (processColumn msColumn name k.column 1 clones)

def processKnockouts (st : AppState) : List Knockout → List Clone → Option (List Clone)
  | [], clones => some clones
  | k :: rest, clones =>
    match processKnockout st clones k with
    | none => none
    | some clones2 => processKnockouts st rest clones2

/-- Comparison of clone sort keys: Python tuple `(str, int)` order. -/
def cloneKeyLe (a b : (String × Nat) × Clone) : Bool :=
  a.1.1 < b.1.1 || (a.1.1 == b.1.1 && a.1.2 ≤ b.1.2)

/-- `State.clones_get_group(group)`: select the group's columns, accumulate
clones, and sort them by `label_to_key` (stable; a ValueError while keying
is modelled by `none`). -/
def clones_get_group (st : AppState) (group : String) : Option (List Clone) :=
  match get_group st.samplesheet group with
  | none => none
  | some sel =>
    match processKnockouts st sel [] with
    | none => none
    | some clones =>
      match mapOption (fun c => (label_to_key c.label).map (fun key => (key, c))) clones with
      | none => none
      | some keyed => some ((keyed.mergeSort cloneKeyLe).map (·.2))

/-! ## Concrete example inputs used by witnesses and counterexamples -/

/-- `State.__init__`'s initial empty samplesheet. -/
def emptySheet : SampleSheet := ⟨[], [], 0, 0, "id"⟩

def emptySnapshot : Snapshot := ⟨emptySheet, [], [], []⟩

/-- The jagged table refuting the pruning claim: column 0 holds a 5-cell
indicator run, column 1 a single non-indicator cell, column 2 a 6-cell
indicator run. -/
def exTableJagged : Table :=
  [[.num 0, .num 0, .num 0, .num 0, .num 0], [.str "x"],
   [.num 0, .num 0, .num 0, .num 0, .num 0, .num 0]]

/-- A uniform 3×3 table whose indicator block spans rows 1–2 of columns 1–2. -/
def exTableUniform : Table :=
  [[.blank, .blank, .blank], [.str "t", .num 1, .num 0], [.str "u", .num 1, .num 1]]

/-- A single-column table whose grid starts at row 1 (one header row). -/
def exTableTopOne : Table := [[.str "g", .num 1, .num 1]]

/-- A sheet whose only column has `split.user = true`. -/
def exSheetC3 : SampleSheet :=
  ⟨[⟨[("id", "x")], [], ⟨true, false⟩, "g"⟩], ["id"], 1, 0, "id"⟩

/-- The `group_by exSheetC3 "id"` output. -/
def exSheetC3out : SampleSheet :=
  ⟨[⟨[("id", "x")], [], ⟨false, false⟩, "x"⟩], ["id"], 1, 0, "id"⟩

/-- Two groups: "A" with occupied counts {0, 1}, "B" with occupied counts
{1, 2}. -/
def exSheetC6 : SampleSheet :=
  ⟨[⟨[("extraction", "A"), ("knockout", "kA1")], [], ⟨false, false⟩, "?"⟩,
    ⟨[("extraction", "A"), ("knockout", "kA2")], [some "x"], ⟨false, false⟩, "?"⟩,
    ⟨[("extraction", "B"), ("knockout", "kB1")], [some "x"], ⟨false, false⟩, "?"⟩,
    ⟨[("extraction", "B"), ("knockout", "kB2")], [some "x", some "x"], ⟨false, false⟩, "?"⟩],
   ["extraction", "knockout"], 4, 2, "id"⟩

/-- The `group_by exSheetC6 "extraction"` output. -/
def exSheetC6out : SampleSheet :=
  ⟨[⟨[("extraction", "A"), ("knockout", "kA1")], [], ⟨false, false⟩, "A"⟩,
    ⟨[("extraction", "A"), ("knockout", "kA2")], [some "A1"], ⟨false, false⟩, "A"⟩,
    ⟨[("extraction", "B"), ("knockout", "kB1")], [some "1"], ⟨false, true⟩, "B"⟩,
    ⟨[("extraction", "B"), ("knockout", "kB2")], [some "1", some "2"], ⟨false, true⟩, "B"⟩],
   ["extraction", "knockout"], 4, 2, "extraction"⟩

def exSheetC9 : SampleSheet :=
  ⟨[⟨[("knockout", "g")], [some "x", none, some "y"], ⟨true, false⟩, "?"⟩],
   ["knockout"], 1, 3, "id"⟩

def exSheetC9out : SampleSheet :=
  ⟨[⟨[("knockout", "g")], [some "A1", none, some "A2"], ⟨false, false⟩, "g"⟩],
   ["knockout"], 1, 3, "knockout"⟩

/-- A state with a two-key mapping (for the `mapping_set` witness). -/
def exStateC2 : AppState :=
  { samplesheet := emptySheet, miseq := [],
    ko_mapping := [("a", some "x"), ("b", some "y")], default_ko_mapping := [],
    undo_history := [], redo_history := [], saved_state := none }

/-- A state with one undo entry (for the undo/redo witness). -/
def exStateC7 : AppState :=
  { samplesheet := emptySheet, miseq := [], ko_mapping := [],
    default_ko_mapping := [], undo_history := [emptySnapshot],
    redo_history := [], saved_state := none }

def exResult : Result := ⟨1, 100, 40, 60, false, [], "", "T"⟩

/-- Two columns of group "gr" share the knockout name "g1"; the first
occupies row 3 (labelled "A1"), the second row 1 (also labelled "A1").
Target "T" has a Result at well 1 but none at well 3. -/
def exStateC8 : AppState :=
  { samplesheet := ⟨[
      ⟨[("knockout", "g1")], [none, none, some "A1"], ⟨false, false⟩, "gr"⟩,
      ⟨[("knockout", "g1")], [some "A1"], ⟨false, false⟩, "gr"⟩],
      ["knockout"], 2, 3, "knockout"⟩,
    miseq := [("T", [(1, exResult)])],
    ko_mapping := [("g1", some "T")],
    default_ko_mapping := [],
    undo_history := [], redo_history := [], saved_state := none }

/-- A single-column state for the aggregation witness: knockout "g1" maps
to null, the column occupies row 2 with label "A1". -/
def exStateC8W : AppState :=
  { samplesheet := ⟨[
      ⟨[("knockout", "g1")], [none, some "A1"], ⟨false, false⟩, "gr"⟩],
      ["knockout"], 1, 2, "knockout"⟩,
    miseq := [],
    ko_mapping := [("g1", none)],
    default_ko_mapping := [],
    undo_history := [], redo_history := [], saved_state := none }

/-! ## Helper lemmas: `mapOption` -/

theorem mapOption_nil_iff {f : α → Option β} {ys : List β} :
    mapOption f [] = some ys ↔ ys = [] := by
  simp [mapOption, eq_comm]

theorem mapOption_cons_iff {f : α → Option β} {x : α} {xs : List α} {ys : List β} :
    mapOption f (x :: xs) = some ys
    ↔ ∃ y ys', f x = some y ∧ mapOption f xs = some ys' ∧ ys = y :: ys' := by
  cases hf : f x <;> cases hm : mapOption f xs <;>
    simp [mapOption, hf, hm, eq_comm]

theorem mapOption_mem {f : α → Option β} :
    ∀ {xs : List α} {ys : List β}, mapOption f xs = some ys →
      ∀ y ∈ ys, ∃ x ∈ xs, f x = some y := by
  intro xs
  induction xs with
  | nil => intro ys h y hy; rw [mapOption_nil_iff] at h; subst h; cases hy
  | cons x xs ih =>
    intro ys h y hy
    obtain ⟨y0, ys', hf, hm, rfl⟩ := mapOption_cons_iff.mp h
    rcases List.mem_cons.mp hy with hy1 | hy1
    · exact ⟨x, List.mem_cons_self x xs, by rw [hf, hy1]⟩
    · obtain ⟨x', hx', hfx'⟩ := ih hm y hy1
      exact ⟨x', List.mem_cons_of_mem x hx', hfx'⟩

theorem mapOption_congr_id {f : α → Option α} :
    ∀ {xs : List α}, (∀ x ∈ xs, f x = some x) → mapOption f xs = some xs := by
  intro xs
  induction xs with
  | nil => intro _; rfl
  | cons x xs ih =>
    intro h
    rw [mapOption_cons_iff]
    exact ⟨x, xs, h x (List.mem_cons_self x xs),
      ih (fun x' hx' => h x' (List.mem_cons_of_mem x hx')), rfl⟩

/-! ## Helper lemmas: labels -/

theorem natStr_ne_empty (n : Nat) : natStr n ≠ "" := by
  unfold natStr natDigitsAux
  split <;> simp [String.ext_iff]

theorem clone_label_ne_empty {n : Nat} {lab : String} (h : clone_label n = some lab) :
    lab ≠ "" := by
  unfold clone_label at h
  split at h
  · cases h
    simp [String.ext_iff, natStr]
  · cases h

theorem clone_label_isSome (n : Nat) : (clone_label n).isSome ↔ n < 312 := by
  unfold clone_label
  split <;> simp <;> omega

theorem occCount_cons (v : Option String) (rest : List (Option String)) :
    occCount (v :: rest) = (if optTruthy v then 1 else 0) + occCount rest := by
  by_cases h : optTruthy v <;> simp [occCount, List.filter_cons, h] <;> omega

theorem updateLabelsGo_false_isSome :
    ∀ (col : List (Option String)) (row counter : Nat),
      (updateLabelsGo false col row counter).isSome
      ↔ (occCount col = 0 ∨ counter + occCount col ≤ 312) := by
  intro col
  induction col with
  | nil => intro row counter; simp [updateLabelsGo, occCount]
  | cons v rest ih =>
    intro row counter
    by_cases hv : optTruthy v
    · rw [occCount_cons, if_pos hv]
      cases h1 : clone_label counter with
      | none =>
        have h1' : ¬ counter < 312 := by
          rw [← clone_label_isSome counter, h1]
          simp
        cases h2 : updateLabelsGo false rest (row + 1) (counter + 1) <;>
          simp [updateLabelsGo, hv, h1, h2] <;> omega
      | some lab =>
        have h1' : counter < 312 := by
          rw [← clone_label_isSome counter, h1]
          simp
        cases h2 : updateLabelsGo false rest (row + 1) (counter + 1) with
        | none =>
          have := ih (row + 1) (counter + 1)
          rw [h2] at this
          simp only [Option.isSome_none, Bool.false_eq_true, false_iff] at this
          simp [updateLabelsGo, hv, h1, h2]
          omega
        | some out =>
          have := ih (row + 1) (counter + 1)
          rw [h2] at this
          simp only [Option.isSome_some, true_iff] at this
          simp [updateLabelsGo, hv, h1, h2]
          omega
    · rw [occCount_cons, if_neg hv]
      simp only [updateLabelsGo, hv, if_neg, Bool.false_eq_true, ite_false,
        Option.isSome_map]
      simpa using ih (row + 1) counter

/-- C10: `clone_label(n)` succeeds exactly for `n < 312` (26 letter banks of
12), and the relabelling of a non-split column therefore fails exactly when
the column has more than 312 occupied cells. -/
theorem clone_label_partiality :
    (∀ n : Nat, (clone_label n).isSome ↔ n < 312)
    ∧ ∀ col : List (Option String),
        (update_cell_labels col false).isSome ↔ occCount col ≤ 312 := by
  refine ⟨clone_label_isSome, fun col => ?_⟩
  rw [update_cell_labels, updateLabelsGo_false_isSome]
  omega

/-- C1: evaluating `_init_ko_mapping`'s inference on knockout names
{"a", "ab"} and the single sequencing target {"abc"}: both knockouts are
prefix-matched to "abc", so two distinct keys share the same non-null
value — the pairwise-distinctness invariant fails already for the inferred
default mapping (prefix-matched targets are never marked used). -/
theorem inferDefault_duplicate_nonnull :
    (inferDefault ["a", "ab"] ["abc"]).lookup "a" = some (some "abc")
    ∧ (inferDefault ["a", "ab"] ["abc"]).lookup "ab" = some (some "abc")
    ∧ "a" ≠ "ab" := by decide

/-- C3 counterexample: a sheet whose only column has `split.user = true`;
after `group_by` (with key "id" present in its headers) the column's
`split.user` is false, so `group_by` does not leave `split.user` equal to
its input value. -/
theorem group_by_user_split_cex :
    exSheetC3.knockouts.map (fun k => k.split.user) = [true]
    ∧ (group_by exSheetC3 "id").map (fun s => s.knockouts.map (fun k => k.split.user))
      = some [false] := by decide

/-- C3 (amended): `group_by` resets `split.user` to false on every column
of the result (rather than leaving it untouched). -/
theorem group_by_resets_user_split (s : SampleSheet) (key : String)
    (s' : SampleSheet) (h : group_by s key = some s') :
    ∀ k' ∈ s'.knockouts, k'.split.user = false := by
  intro k' hk'
  unfold group_by at h
  split at h
  · cases h
  · rename_i ks hks
    split at h
    · cases h
    · rename_i ks2 hks2
      cases h
      obtain ⟨k1, _, hf⟩ := mapOption_mem hks2 k' hk'
      dsimp only at hf
      obtain ⟨col, _, hcol⟩ := Option.map_eq_some'.mp hf
      rw [← hcol]

theorem group_by_resets_user_split_witness :
    group_by exSheetC3 "id" = some exSheetC3out
    ∧ (⟨[("id", "x")], [], ⟨false, false⟩, "x"⟩ : Knockout).split.user = false :=
  ⟨by decide,
   group_by_resets_user_split exSheetC3 "id" exSheetC3out (by decide)
     ⟨[("id", "x")], [], ⟨false, false⟩, "x"⟩ (by decide)⟩

/-! ## Helper lemmas: association-list lookups under `map` -/

theorem lookup_map_pair (l : List (String × α)) (f : String → α → β) (k : String) :
    (l.map (fun p => (p.1, f p.1 p.2))).lookup k = (l.lookup k).map (f k) := by
  induction l with
  | nil => rfl
  | cons p rest ih =>
    rcases p with ⟨a, b⟩
    cases hak : k == a with
    | true =>
      simp only [List.map_cons, List.lookup, hak, Option.map_some']
      rw [beq_iff_eq.mp hak]
    | false =>
      simp only [List.map_cons, List.lookup, hak]
      exact ih

/-- C2: `mapping_set` on a knockout present in the mapping: a no-op call
leaves the whole state (mapping, undo stack, redo stack) unchanged and
records no history entry; a changing call pushes exactly one undo entry
(the prior snapshot), clears redo, binds the knockout to the new target and
nulls every other key that previously held that target. -/
theorem mapping_set_spec (st : AppState) (k : String) (t : Option String)
    (cur : Option String) (h : st.ko_mapping.lookup k = some cur) :
    (cur = t → mapping_set st k t = some st)
    ∧ (cur ≠ t → ∃ st', mapping_set st k t = some st'
        ∧ st'.undo_history = st.undo_history ++ [storeState st]
        ∧ st'.redo_history = []
        ∧ st'.ko_mapping.lookup k = some t
        ∧ ∀ key, key ≠ k →
            st'.ko_mapping.lookup key
              = (st.ko_mapping.lookup key).map (fun v => if v = t then none else v)) := by
  have hmap : (st.ko_mapping.map (fun p => (p.1, if p.2 = t then none else p.2))).map
      (fun p => if p.1 = k then (p.1, t) else p)
      = st.ko_mapping.map (fun p =>
          (p.1, if p.1 = k then t else if p.2 = t then none else p.2)) := by
    rw [List.map_map]
    apply List.map_congr_left
    intro p _
    by_cases hp : p.1 = k <;> simp [hp]
  constructor
  · intro he
    unfold mapping_set
    rw [h]
    dsimp only
    rw [if_pos he]
  · intro hne
    refine ⟨{ appendUndoHistory st (storeState st) with
        ko_mapping := st.ko_mapping.map (fun p =>
          (p.1, if p.1 = k then t else if p.2 = t then none else p.2)) },
      ?_, rfl, rfl, ?_, ?_⟩
    · unfold mapping_set
      rw [h]
      dsimp only
      rw [if_neg hne, hmap]
    · show (st.ko_mapping.map (fun p =>
        (p.1, if p.1 = k then t else if p.2 = t then none else p.2))).lookup k = some t
      rw [lookup_map_pair st.ko_mapping
        (fun key v => if key = k then t else if v = t then none else v) k, h]
      simp
    · intro key hkey
      show (st.ko_mapping.map (fun p =>
        (p.1, if p.1 = k then t else if p.2 = t then none else p.2))).lookup key = _
      rw [lookup_map_pair st.ko_mapping
        (fun key v => if key = k then t else if v = t then none else v) key]
      cases st.ko_mapping.lookup key <;> simp [hkey]

theorem mapping_set_spec_witness :
    exStateC2.ko_mapping.lookup "a" = some (some "x")
    ∧ mapping_set exStateC2 "a" (some "x") = some exStateC2 :=
  ⟨by decide, (mapping_set_spec exStateC2 "a" (some "x") (some "x") (by decide)).1 rfl⟩

/-! ## Helper lemmas: undo/redo -/

theorem redo_undo_eq (st : AppState) (h : st.undo_history ≠ []) :
    redo (undo st) = st := by
  rcases List.eq_nil_or_concat st.undo_history with h0 | ⟨l, s, heq⟩
  · exact absurd h0 h
  · rw [List.concat_eq_append] at heq
    unfold undo
    rw [heq, List.getLast?_concat]
    dsimp only
    unfold redo
    rw [List.getLast?_concat]
    dsimp only [replaceState, storeState]
    rw [List.dropLast_concat, ← heq, List.dropLast_concat]

/-- C7: with a non-empty undo stack, `undo` followed by `redo` restores the
snapshot that existed before the undo, and after `save_state; undo; redo`
the structural `is_saved` comparison reports true. -/
theorem undo_redo_restores (st : AppState) (h : st.undo_history ≠ []) :
    storeState (redo (undo st)) = storeState st
    ∧ isSaved (redo (undo (saveState st))) = true := by
  have h2 : (saveState st).undo_history ≠ [] := h
  rw [redo_undo_eq st h, redo_undo_eq (saveState st) h2]
  exact ⟨rfl, by simp [isSaved, saveState, storeState]⟩

theorem undo_redo_restores_witness :
    exStateC7.undo_history ≠ []
    ∧ storeState (redo (undo exStateC7)) = storeState exStateC7
    ∧ isSaved (redo (undo (saveState exStateC7))) = true :=
  ⟨by decide, (undo_redo_restores exStateC7 (by decide)).1,
   (undo_redo_restores exStateC7 (by decide)).2⟩

/-! ## Helper lemmas: grouping -/

/-- The spec-side per-group occupied-count set: over the columns of the
INPUT sheet whose header value at the grouping key equals `g`. -/
def specGroupCounts (s : SampleSheet) (key g : String) : Finset Nat :=
  ((s.knockouts.filter (fun k => k.headers.lookup key == some g)).map
    (fun k => occCount k.column)).toFinset

theorem pass1_counts (key g : String) :
    ∀ (xs ys : List Knockout),
      mapOption (fun k => (k.headers.lookup key).map
        (fun g0 => { k with group := g0 })) xs = some ys →
      (ys.filter (fun k => k.group == g)).map (fun k => occCount k.column)
      = (xs.filter (fun k => k.headers.lookup key == some g)).map
          (fun k => occCount k.column) := by
  intro xs
  induction xs with
  | nil => intro ys h; rw [mapOption_nil_iff] at h; subst h; rfl
  | cons x xs ih =>
    intro ys h
    obtain ⟨y, ys', hf, hm, rfl⟩ := mapOption_cons_iff.mp h
    obtain ⟨gx, hgx, hy⟩ := Option.map_eq_some'.mp hf
    subst hy
    rw [List.filter_cons, List.filter_cons]
    by_cases hg : gx = g
    · subst hg
      simp only [show ({ x with group := gx } : Knockout).group = gx from rfl,
        beq_self_eq_true, if_true, hgx, beq_self_eq_true, List.map_cons]
      rw [ih ys' hm]
    · have h1 : (({ x with group := gx } : Knockout).group == g) = false := by
        simpa using hg
      have h2 : (x.headers.lookup key == some g) = false := by
        rw [hgx]
        simpa using hg
      rw [h1, h2]
      simp only [Bool.false_eq_true, if_false]
      exact ih ys' hm

theorem group_counts_eq (s : SampleSheet) (key : String) (ks : List Knockout)
    (hks : mapOption (fun k => (k.headers.lookup key).map
      (fun g0 => { k with group := g0 })) s.knockouts = some ks) (g : String) :
    groupCellCounts ks g = specGroupCounts s key g := by
  unfold groupCellCounts specGroupCounts
  rw [pass1_counts key g s.knockouts ks hks]

/-- C6: after `group_by`, a column's `auto` flag is set iff the set of
occupied-cell counts of its group's columns (computed over the input
sheet), with 0 removed, has more than one distinct value. -/
theorem group_by_auto_iff (s : SampleSheet) (key : String) (s' : SampleSheet)
    (h : group_by s key = some s') :
    ∀ k' ∈ s'.knockouts,
      (k'.split.auto = true ↔ 1 < ((specGroupCounts s key k'.group).erase 0).card) := by
  intro k' hk'
  unfold group_by at h
  split at h
  · cases h
  · rename_i ks hks
    split at h
    · cases h
    · rename_i ks2 hks2
      cases h
      obtain ⟨k1, _, hf⟩ := mapOption_mem hks2 k' hk'
      dsimp only at hf
      obtain ⟨col, _, hcol⟩ := Option.map_eq_some'.mp hf
      have hauto : k'.split.auto = isVerificationGroup ks k1.group := by
        rw [← hcol]
      have hgroup : k'.group = k1.group := by
        rw [← hcol]
      rw [hauto, hgroup, isVerificationGroup,
        group_counts_eq s key ks hks k1.group]
      simp

theorem group_by_auto_iff_witness :
    group_by exSheetC6 "extraction" = some exSheetC6out
    ∧ (⟨[("extraction", "B"), ("knockout", "kB1")], [some "1"], ⟨false, true⟩, "B"⟩ : Knockout)
        ∈ exSheetC6out.knockouts
    ∧ ((⟨[("extraction", "B"), ("knockout", "kB1")], [some "1"], ⟨false, true⟩, "B"⟩
          : Knockout).split.auto = true
        ↔ 1 < ((specGroupCounts exSheetC6 "extraction" "B").erase 0).card) :=
  ⟨by decide, by decide,
   group_by_auto_iff exSheetC6 "extraction" exSheetC6out (by decide)
     ⟨[("extraction", "B"), ("knockout", "kB1")], [some "1"], ⟨false, true⟩, "B"⟩
     (by decide)⟩

/-! ## Helper lemmas: relabelling -/

theorem updateLabelsGo_cons_true {iv : Bool} {v : Option String}
    {rest : List (Option String)} {row counter : Nat} {col' : List (Option String)}
    (hv : optTruthy v = true) :
    updateLabelsGo iv (v :: rest) row counter = some col'
    ↔ ∃ lab out, (if iv then some (natStr (row + 1)) else clone_label counter) = some lab
        ∧ updateLabelsGo iv rest (row + 1) (counter + 1) = some out
        ∧ col' = some lab :: out := by
  cases hl : (if iv then some (natStr (row + 1)) else clone_label counter) <;>
    cases hr : updateLabelsGo iv rest (row + 1) (counter + 1) <;>
      simp [updateLabelsGo, hv, hl, hr, eq_comm]

theorem updateLabelsGo_cons_false {iv : Bool} {v : Option String}
    {rest : List (Option String)} {row counter : Nat} {col' : List (Option String)}
    (hv : optTruthy v = false) :
    updateLabelsGo iv (v :: rest) row counter = some col'
    ↔ ∃ out, updateLabelsGo iv rest (row + 1) counter = some out ∧ col' = v :: out := by
  cases hr : updateLabelsGo iv rest (row + 1) counter <;>
    simp [updateLabelsGo, hv, hr, eq_comm]

theorem updateLabelsGo_label_ne_empty {iv : Bool} {row counter : Nat} {lab : String}
    (hl : (if iv then some (natStr (row + 1)) else clone_label counter) = some lab) :
    lab ≠ "" := by
  cases iv with
  | true =>
    simp only [if_true] at hl
    cases hl
    exact natStr_ne_empty (row + 1)
  | false =>
    simp only [Bool.false_eq_true, if_false] at hl
    exact clone_label_ne_empty hl

theorem updateLabelsGo_occ {iv : Bool} :
    ∀ (col : List (Option String)) (row counter : Nat) (col' : List (Option String)),
      updateLabelsGo iv col row counter = some col' → occCount col' = occCount col := by
  intro col
  induction col with
  | nil =>
    intro row counter col' h
    rw [show updateLabelsGo iv [] row counter = some [] from rfl] at h
    cases h
    rfl
  | cons v rest ih =>
    intro row counter col' h
    by_cases hv : optTruthy v
    · obtain ⟨lab, out, hlab, hout, rfl⟩ := (updateLabelsGo_cons_true hv).mp h
      have hlabne : optTruthy (some lab) = true := by
        simpa [optTruthy] using updateLabelsGo_label_ne_empty hlab
      rw [occCount_cons, occCount_cons, if_pos hv, if_pos hlabne, ih _ _ _ hout]
    · obtain ⟨out, hout, rfl⟩ :=
        (updateLabelsGo_cons_false (by simpa using hv)).mp h
      rw [occCount_cons, occCount_cons, ih _ _ _ hout]

theorem updateLabelsGo_idem {iv : Bool} :
    ∀ (col : List (Option String)) (row counter : Nat) (col' : List (Option String)),
      updateLabelsGo iv col row counter = some col' →
      updateLabelsGo iv col' row counter = some col' := by
  intro col
  induction col with
  | nil =>
    intro row counter col' h
    rw [show updateLabelsGo iv [] row counter = some [] from rfl] at h
    cases h
    rfl
  | cons v rest ih =>
    intro row counter col' h
    by_cases hv : optTruthy v
    · obtain ⟨lab, out, hlab, hout, rfl⟩ := (updateLabelsGo_cons_true hv).mp h
      have hlabne : optTruthy (some lab) = true := by
        simpa [optTruthy] using updateLabelsGo_label_ne_empty hlab
      exact (updateLabelsGo_cons_true hlabne).mpr
        ⟨lab, out, hlab, ih _ _ _ hout, rfl⟩
    · obtain ⟨out, hout, rfl⟩ :=
        (updateLabelsGo_cons_false (by simpa using hv)).mp h
      exact (updateLabelsGo_cons_false (by simpa using hv)).mpr
        ⟨out, ih _ _ _ hout, rfl⟩

theorem update_cell_labels_occ {col : List (Option String)} {iv : Bool}
    {col' : List (Option String)} (h : update_cell_labels col iv = some col') :
    occCount col' = occCount col :=
  updateLabelsGo_occ col 0 0 col' h

theorem update_cell_labels_idem {col : List (Option String)} {iv : Bool}
    {col' : List (Option String)} (h : update_cell_labels col iv = some col') :
    update_cell_labels col' iv = some col' :=
  updateLabelsGo_idem col 0 0 col' h

theorem pass2_counts (ks : List Knockout) (g : String) :
    ∀ (xs ys : List Knockout),
      mapOption (fun k =>
        let iv := isVerificationGroup ks k.group
        (update_cell_labels k.column iv).map
          (fun col => { k with split := ⟨false, iv⟩, column := col })) xs = some ys →
      (ys.filter (fun k => k.group == g)).map (fun k => occCount k.column)
      = (xs.filter (fun k => k.group == g)).map (fun k => occCount k.column) := by
  intro xs
  induction xs with
  | nil => intro ys h; rw [mapOption_nil_iff] at h; subst h; rfl
  | cons x xs ih =>
    intro ys h
    obtain ⟨y, ys', hf, hm, rfl⟩ := mapOption_cons_iff.mp h
    dsimp only at hf
    obtain ⟨col, hcol, hy⟩ := Option.map_eq_some'.mp hf
    subst hy
    rw [List.filter_cons, List.filter_cons]
    dsimp only
    by_cases hg : x.group = g
    · rw [if_pos (by simpa using hg), if_pos (by simpa using hg)]
      simp only [List.map_cons]
      rw [ih ys' hm, update_cell_labels_occ hcol]
    · rw [if_neg (by simpa using hg), if_neg (by simpa using hg)]
      exact ih ys' hm

theorem pass2_group_counts_eq (ks : List Knockout) (ks2 : List Knockout)
    (h : mapOption (fun k =>
      let iv := isVerificationGroup ks k.group
      (update_cell_labels k.column iv).map
        (fun col => { k with split := ⟨false, iv⟩, column := col })) ks = some ks2)
    (g : String) : groupCellCounts ks2 g = groupCellCounts ks g := by
  unfold groupCellCounts
  rw [pass2_counts ks g ks ks2 h]

/-- C9: `group_by` is idempotent for a fixed key: whenever
`group_by s key` succeeds with result `t`, applying `group_by t key` again
returns `t` unchanged (cell labels and split flags included). -/
theorem group_by_idempotent (s : SampleSheet) (key : String) (t : SampleSheet)
    (h : group_by s key = some t) : group_by t key = some t := by
  unfold group_by at h
  split at h
  · cases h
  · rename_i ks hks
    split at h
    · cases h
    · rename_i ks2 hks2
      cases h
      -- every column of ks2 still looks its own group up at `key`
      have hlook : ∀ k2 ∈ ks2, k2.headers.lookup key = some k2.group := by
        intro k2 hk2
        obtain ⟨k1, hk1, hf⟩ := mapOption_mem hks2 k2 hk2
        dsimp only at hf
        obtain ⟨col, _, hcol⟩ := Option.map_eq_some'.mp hf
        obtain ⟨x, _, hfx⟩ := mapOption_mem hks k1 hk1
        obtain ⟨gx, hgx, hx⟩ := Option.map_eq_some'.mp hfx
        have hheads : k2.headers = x.headers := by rw [← hcol, ← hx]
        have hgrp : k2.group = gx := by rw [← hcol, ← hx]
        rw [hheads, hgrp, hgx]
      -- the first pass of the second run is the identity
      have hpass1 : mapOption (fun k => (k.headers.lookup key).map
          (fun g0 => { k with group := g0 })) ks2 = some ks2 := by
        apply mapOption_congr_id
        intro k2 hk2
        rw [hlook k2 hk2]
        rfl
      -- per-group counts are unchanged by the relabelling pass
      have hcounts : ∀ g, isVerificationGroup ks2 g = isVerificationGroup ks g := by
        intro g
        unfold isVerificationGroup
        rw [pass2_group_counts_eq ks ks2 hks2 g]
      -- the second pass of the second run is the identity
      have hpass2 : mapOption (fun k =>
          let iv := isVerificationGroup ks2 k.group
          (update_cell_labels k.column iv).map
            (fun col => { k with split := ⟨false, iv⟩, column := col })) ks2
          = some ks2 := by
        apply mapOption_congr_id
        intro k2 hk2
        obtain ⟨k1, hk1, hf⟩ := mapOption_mem hks2 k2 hk2
        dsimp only at hf
        obtain ⟨col, hcol, hk2eq⟩ := Option.map_eq_some'.mp hf
        dsimp only
        rw [hcounts k2.group,
          show k2.group = k1.group by rw [← hk2eq],
          show k2.column = col by rw [← hk2eq],
          update_cell_labels_idem hcol, Option.map_some']
        rw [← hk2eq]
      unfold group_by
      rw [show ({ s with knockouts := ks2, group_by := key } : SampleSheet).knockouts
          = ks2 from rfl, hpass1]
      dsimp only
      rw [hpass2]

theorem group_by_idempotent_witness :
    group_by exSheetC9 "knockout" = some exSheetC9out
    ∧ group_by exSheetC9out "knockout" = some exSheetC9out :=
  ⟨by decide, group_by_idempotent exSheetC9 "knockout" exSheetC9out (by decide)⟩

/-- C4 counterexample: a table whose located grid has `top = 1` (fewer than
the 3 configured header rows above it); the claim demands a layout failure,
but assembly succeeds. -/
theorem assemble_top_lt_three_cex :
    (locateCells exTableTopOne).map Rect.top = some 1
    ∧ (assemble exTableTopOne).isOk = true := by decide

/-- C4 (amended): given a located grid, assembly fails on the header-rows
check exactly when `top = 0` (no rows at all above the grid); for any
`top ≥ 1` — including `top = 1` and `top = 2`, which are below the number
of configured header rows — it passes the locate and header-reading steps,
reading only the available trailing header keys. -/
theorem assemble_header_check (table : Table) (cells : Rect)
    (h : locateCells table = some cells) :
    (cells.top = 0 → assemble table = .error .headerRows)
    ∧ (cells.top ≠ 0 → assemble table ≠ .error .headerRows
        ∧ assemble table ≠ .error .locate) := by
  constructor
  · intro h0
    unfold assemble
    rw [h]
    dsimp only
    rw [if_pos h0]
  · intro h0
    unfold assemble
    rw [h]
    dsimp only
    rw [if_neg h0]
    constructor <;> split <;> simp

theorem assemble_header_check_witness :
    locateCells exTableUniform = some ⟨1, 1, 3, 3⟩
    ∧ (1 : Nat) ≠ 0
    ∧ assemble exTableUniform ≠ .error .headerRows
    ∧ assemble exTableUniform ≠ .error .locate :=
  ⟨by decide, by decide,
   ((assemble_header_check exTableUniform ⟨1, 1, 3, 3⟩ (by decide)).2 (by decide)).1,
   ((assemble_header_check exTableUniform ⟨1, 1, 3, 3⟩ (by decide)).2 (by decide)).2⟩

/-! ## Helper lemmas: clone accumulation -/

theorem lookup_cons {α : Type} (p : String × α) (rest : List (String × α))
    (key : String) :
    List.lookup key (p :: rest) = if key = p.1 then some p.2 else List.lookup key rest := by
  by_cases h : key = p.1
  · simp [List.lookup, h]
  · rw [if_neg h]
    simp [List.lookup, show (key == p.1) = false by simpa using h]

theorem dictInsert_lookup_eq {α : Type} (d : List (String × α)) (k : String) (v : α) :
    (dictInsert d k v).lookup k = some v := by
  unfold dictInsert
  split
  · rename_i hany
    induction d with
    | nil => simp at hany
    | cons p rest ih =>
      by_cases hp : p.1 = k
      · simp [lookup_cons, hp]
      · have hne2 : ¬ k = p.1 := fun hh => hp hh.symm
        simp only [List.any_cons, Bool.or_eq_true, beq_iff_eq, hp, false_or] at hany
        rw [List.map_cons, if_neg hp, lookup_cons, if_neg hne2]
        exact ih hany
  · rename_i hany
    simp only [List.any_eq_true, beq_iff_eq, not_exists, not_and] at hany
    induction d with
    | nil => simp [lookup_cons]
    | cons p rest ih =>
      have hp : ¬ k = p.1 := fun hh => hany p (List.mem_cons_self p rest) hh.symm
      rw [List.cons_append, lookup_cons, if_neg hp]
      exact ih (fun q hq => hany q (List.mem_cons_of_mem p hq))

theorem dictInsert_lookup_ne {α : Type} (d : List (String × α)) (k : String) (v : α)
    (key : String) (hne : key ≠ k) :
    (dictInsert d k v).lookup key = d.lookup key := by
  unfold dictInsert
  split
  · rename_i hany
    clear hany
    induction d with
    | nil => rfl
    | cons p rest ih =>
      by_cases hp : p.1 = k
      · rw [List.map_cons, if_pos hp, lookup_cons, lookup_cons,
          if_neg (show ¬ key = (k, v).1 from hne), if_neg (show ¬ key = p.1 from hp ▸ hne)]
        exact ih
      · rw [List.map_cons, if_neg hp, lookup_cons, lookup_cons]
        by_cases hk : key = p.1
        · rw [if_pos hk, if_pos hk]
        · rw [if_neg hk, if_neg hk]
          exact ih
  · rename_i hany
    clear hany
    induction d with
    | nil => simp [lookup_cons, hne]
    | cons p rest ih =>
      rw [List.cons_append, lookup_cons, lookup_cons]
      by_cases hk : key = p.1
      · rw [if_pos hk, if_pos hk]
      · rw [if_neg hk, if_neg hk]
        exact ih

/-- Invariant: every clone labelled `L` has a `name` entry that is either
absent or null. -/
def cloneNullInv (L name : String) (cs : List Clone) : Prop :=
  ∀ c ∈ cs, c.label = L →
    (c.knockouts.lookup name = none ∨ c.knockouts.lookup name = some none)

/-- Some clone labelled `L` carries a present-but-null `name` entry. -/
def cloneNullSome (L name : String) (cs : List Clone) : Prop :=
  ∃ c ∈ cs, c.label = L ∧ c.knockouts.lookup name = some none

/-- Clone labels are pairwise distinct (the accumulator is a dict keyed by
label). -/
def labelsNodup (cs : List Clone) : Prop := (cs.map (fun c => c.label)).Nodup

theorem addResult_label_mem {cs : List Clone} {lab n : String} {v : Option Result} :
    ∀ c' ∈ addResult cs lab n v, c' ∈ cs ∨ c'.label = lab ∨
      ∃ c ∈ cs, c.label = lab ∧ c' = { c with knockouts := dictInsert c.knockouts n v } := by
  intro c' hc'
  unfold addResult at hc'
  split at hc'
  · obtain ⟨c, hc, rfl⟩ := List.mem_map.mp hc'
    by_cases hcl : c.label = lab
    · exact Or.inr (Or.inr ⟨c, hc, hcl, by rw [if_pos hcl]⟩)
    · rw [if_neg hcl]
      exact Or.inl hc
  · rcases List.mem_append.mp hc' with h | h
    · exact Or.inl h
    · rcases List.mem_singleton.mp h with rfl
      exact Or.inr (Or.inl rfl)

theorem addResult_inv {L name : String} {cs : List Clone} {lab n : String}
    {v : Option Result} (hI : cloneNullInv L name cs)
    (hw : lab = L → n = name → v = none) :
    cloneNullInv L name (addResult cs lab n v) := by
  intro c' hc' hcl'
  rcases addResult_label_mem c' hc' with h | h | ⟨c, hc, hclab, rfl⟩
  · exact hI c' h hcl'
  · -- c' is the freshly appended clone ⟨lab, none, [(n, v)]⟩ or has label lab;
    -- recover its exact shape from the append branch
    unfold addResult at hc'
    split at hc'
    · obtain ⟨c, hc, rfl⟩ := List.mem_map.mp hc'
      by_cases hcl : c.label = lab
      · rw [if_pos hcl]
        rw [if_pos hcl] at hcl'
        by_cases hn : n = name
        · subst hn
          right
          rw [show ({ c with knockouts := dictInsert c.knockouts n v } : Clone).knockouts
            = dictInsert c.knockouts n v from rfl, dictInsert_lookup_eq,
            hw (hcl ▸ hcl') rfl]
        · rw [show ({ c with knockouts := dictInsert c.knockouts n v } : Clone).knockouts
            = dictInsert c.knockouts n v from rfl, dictInsert_lookup_ne _ _ _ _
              (fun hh => hn hh.symm)]
          exact hI c hc hcl'
      · rw [if_neg hcl]
        rw [if_neg hcl] at hcl'
        exact hI c hc hcl'
    · rcases List.mem_append.mp hc' with hh | hh
      · exact hI c' hh hcl'
      · rcases List.mem_singleton.mp hh with rfl
        by_cases hn : n = name
        · right
          show List.lookup name [(n, v)] = some none
          rw [← hn, lookup_cons, if_pos rfl, hw hcl' hn]
        · left
          show List.lookup name [(n, v)] = none
          rw [lookup_cons, if_neg (fun hh2 => hn hh2.symm)]
          rfl
  · rw [show ({ c with knockouts := dictInsert c.knockouts n v } : Clone).knockouts
      = dictInsert c.knockouts n v from rfl]
    by_cases hn : n = name
    · subst hn
      right
      rw [dictInsert_lookup_eq, hw (hclab ▸ hcl') rfl]
    · rw [dictInsert_lookup_ne _ _ _ _ (fun hh => hn hh.symm)]
      exact hI c hc hcl'

theorem addResult_some {L name : String} {cs : List Clone} {lab n : String}
    {v : Option Result} (hS : cloneNullSome L name cs)
    (hw : lab = L → n = name → v = none) :
    cloneNullSome L name (addResult cs lab n v) := by
  obtain ⟨c, hc, hcl, hlk⟩ := hS
  unfold addResult
  split
  · refine ⟨if c.label = lab then { c with knockouts := dictInsert c.knockouts n v }
      else c, List.mem_map_of_mem _ hc, ?_, ?_⟩
    · by_cases hcl2 : c.label = lab
      · rw [if_pos hcl2]
        exact hcl
      · rw [if_neg hcl2]
        exact hcl
    · by_cases hcl2 : c.label = lab
      · rw [if_pos hcl2]
        by_cases hn : n = name
        · subst hn
          rw [show ({ c with knockouts := dictInsert c.knockouts n v } : Clone).knockouts
            = dictInsert c.knockouts n v from rfl, dictInsert_lookup_eq,
            hw (hcl2 ▸ hcl) rfl]
        · rw [show ({ c with knockouts := dictInsert c.knockouts n v } : Clone).knockouts
            = dictInsert c.knockouts n v from rfl,
            dictInsert_lookup_ne _ _ _ _ (fun hh => hn hh.symm)]
          exact hlk
      · rw [if_neg hcl2]
        exact hlk
  · exact ⟨c, List.mem_append_left _ hc, hcl, hlk⟩

theorem addResult_establish {L name : String} {cs : List Clone} {v : Option Result}
    (hv : v = none) :
    cloneNullSome L name (addResult cs L name v) := by
  unfold addResult
  split
  · rename_i hany
    obtain ⟨c, hc, hcl⟩ := List.any_eq_true.mp hany
    have hcl' : c.label = L := by simpa using hcl
    refine ⟨{ c with knockouts := dictInsert c.knockouts name v },
      ?_, hcl', ?_⟩
    · exact List.mem_map.mpr ⟨c, hc, by rw [if_pos hcl']⟩
    · rw [show ({ c with knockouts := dictInsert c.knockouts name v } : Clone).knockouts
        = dictInsert c.knockouts name v from rfl, dictInsert_lookup_eq, hv]
  · refine ⟨⟨L, none, [(name, v)]⟩, List.mem_append_right _ (List.mem_singleton.mpr rfl),
      rfl, ?_⟩
    show List.lookup name [(name, v)] = some none
    rw [lookup_cons, if_pos rfl, hv]

theorem addResult_nodup {cs : List Clone} {lab n : String} {v : Option Result}
    (hU : labelsNodup cs) : labelsNodup (addResult cs lab n v) := by
  unfold addResult
  split
  · rename_i hany
    unfold labelsNodup
    rw [List.map_map]
    have : ((fun c => c.label) ∘ (fun c =>
        if c.label = lab then { c with knockouts := dictInsert c.knockouts n v } else c))
        = fun c : Clone => c.label := by
      funext c
      by_cases hcl : c.label = lab <;> simp [hcl]
    rw [this]
    exact hU
  · rename_i hany
    unfold labelsNodup
    rw [List.map_append]
    simp only [List.map_cons, List.map_nil]
    rw [List.nodup_append]
    refine ⟨hU, List.nodup_singleton lab, ?_⟩
    intro x hx hx2
    rcases List.mem_singleton.mp hx2 with rfl
    obtain ⟨c, hc, rfl⟩ := List.mem_map.mp hx
    exact hany (List.any_eq_true.mpr ⟨c, hc, by simp⟩)

theorem nodup_label_eq {cs : List Clone} (h : labelsNodup cs)
    {c1 c2 : Clone} (h1 : c1 ∈ cs) (h2 : c2 ∈ cs) (hl : c1.label = c2.label) :
    c1 = c2 := by
  induction cs with
  | nil => cases h1
  | cons x rest ih =>
    unfold labelsNodup at h
    rw [List.map_cons, List.nodup_cons] at h
    rcases List.mem_cons.mp h1 with rfl | hm1
    · rcases List.mem_cons.mp h2 with rfl | hm2
      · rfl
      · have hmm : c2.label ∈ List.map (fun c => c.label) rest :=
          List.mem_map_of_mem (fun c => c.label) hm2
        rw [← hl] at hmm
        exact absurd hmm h.1
    · rcases List.mem_cons.mp h2 with rfl | hm2
      · have hmm : c1.label ∈ List.map (fun c => c.label) rest :=
          List.mem_map_of_mem (fun c => c.label) hm1
        rw [hl] at hmm
        exact absurd hmm h.1
      · exact ih h.2 hm1 hm2

theorem processColumn_inv {L name : String} {msColumn : List (Nat × Result)}
    {namek : String} :
    ∀ (col : List (Option String)) (idx : Nat) (cs : List Clone),
      (∀ m lab, col.get? m = some (some lab) → lab = L → namek = name →
        msColumn.lookup (idx + m) = none) →
      cloneNullInv L name cs → labelsNodup cs →
      cloneNullInv L name (processColumn msColumn namek col idx cs)
      ∧ labelsNodup (processColumn msColumn namek col idx cs) := by
  intro col
  induction col with
  | nil => intro idx cs _ hI hU; exact ⟨hI, hU⟩
  | cons v rest ih =>
    intro idx cs hcond hI hU
    cases v with
    | none =>
      show cloneNullInv L name (processColumn msColumn namek rest (idx + 1) cs) ∧ _
      apply ih
      · intro m lab hget hlab hnk
        have := hcond (m + 1) lab hget hlab hnk
        rwa [show idx + (m + 1) = idx + 1 + m by omega] at this
      · exact hI
      · exact hU
    | some lab0 =>
      show cloneNullInv L name (processColumn msColumn namek rest (idx + 1)
        (addResult cs lab0 namek (msColumn.lookup idx))) ∧ _
      apply ih
      · intro m lab hget hlab hnk
        have := hcond (m + 1) lab hget hlab hnk
        rwa [show idx + (m + 1) = idx + 1 + m by omega] at this
      · exact addResult_inv hI (fun h1 h2 => by
          have := hcond 0 lab0 rfl h1 h2
          rwa [Nat.add_zero] at this)
      · exact addResult_nodup hU

theorem processColumn_some {L name : String} {msColumn : List (Nat × Result)}
    {namek : String} :
    ∀ (col : List (Option String)) (idx : Nat) (cs : List Clone),
      (∀ m lab, col.get? m = some (some lab) → lab = L → namek = name →
        msColumn.lookup (idx + m) = none) →
      cloneNullSome L name cs →
      cloneNullSome L name (processColumn msColumn namek col idx cs) := by
  intro col
  induction col with
  | nil => intro idx cs _ hS; exact hS
  | cons v rest ih =>
    intro idx cs hcond hS
    cases v with
    | none =>
      apply ih
      · intro m lab hget hlab hnk
        have := hcond (m + 1) lab hget hlab hnk
        rwa [show idx + (m + 1) = idx + 1 + m by omega] at this
      · exact hS
    | some lab0 =>
      apply ih
      · intro m lab hget hlab hnk
        have := hcond (m + 1) lab hget hlab hnk
        rwa [show idx + (m + 1) = idx + 1 + m by omega] at this
      · exact addResult_some hS (fun h1 h2 => by
          have := hcond 0 lab0 rfl h1 h2
          rwa [Nat.add_zero] at this)

theorem processColumn_establish {L name : String} {msColumn : List (Nat × Result)} :
    ∀ (col : List (Option String)) (idx : Nat) (cs : List Clone) (j : Nat),
      col.get? j = some (some L) →
      (∀ m lab, col.get? m = some (some lab) → lab = L →
        msColumn.lookup (idx + m) = none) →
      cloneNullSome L name (processColumn msColumn name col idx cs) := by
  intro col
  induction col with
  | nil => intro idx cs j hj _; cases j <;> cases hj
  | cons v rest ih =>
    intro idx cs j hj hcond
    cases j with
    | zero =>
      have hv : v = some L := by
        have : some v = some (some L) := hj
        exact Option.some.inj this
      subst hv
      show cloneNullSome L name (processColumn msColumn name rest (idx + 1)
        (addResult cs L name (msColumn.lookup idx)))
      apply processColumn_some rest (idx + 1) _
      · intro m lab hget hlab _
        have := hcond (m + 1) lab hget hlab
        rwa [show idx + (m + 1) = idx + 1 + m by omega] at this
      · apply addResult_establish
        have := hcond 0 L rfl rfl
        rwa [Nat.add_zero] at this
    | succ m =>
      cases v with
      | none =>
        apply ih (idx + 1) cs m hj
        intro m2 lab hget hlab
        have := hcond (m2 + 1) lab hget hlab
        rwa [show idx + (m2 + 1) = idx + 1 + m2 by omega] at this
      | some lab0 =>
        apply ih (idx + 1) (addResult cs lab0 name (msColumn.lookup idx)) m hj
        intro m2 lab hget hlab
        have := hcond (m2 + 1) lab hget hlab
        rwa [show idx + (m2 + 1) = idx + 1 + m2 by omega] at this

/-- The amended-claim hypothesis for C8: the column's knockout name maps to
null, or it maps to a target whose sequencing output exists but has no
Result at the (1-based) row of ANY occupied cell labelled `L` in a column of
the selection sharing that knockout name (the overwrite-free condition). -/
def nullTarget (st : AppState) (sel : List Knockout) (L name : String) : Prop :=
  st.ko_mapping.lookup name = some none
  ∨ ∃ t msCol, st.ko_mapping.lookup name = some (some t)
      ∧ st.miseq.lookup t = some msCol
      ∧ ∀ k' ∈ sel, k'.headers.lookup "knockout" = some name →
          ∀ j', k'.column.get? j' = some (some L) → msCol.lookup (j' + 1) = none

theorem processKnockout_inv {st : AppState} {sel : List Knockout} {L name : String}
    (hG : nullTarget st sel L name) {k' : Knockout} (hk' : k' ∈ sel)
    {cs cs' : List Clone} (h : processKnockout st cs k' = some cs')
    (hI : cloneNullInv L name cs) (hU : labelsNodup cs) :
    cloneNullInv L name cs' ∧ labelsNodup cs'
    ∧ (cloneNullSome L name cs → cloneNullSome L name cs') := by
  unfold processKnockout at h
  rcases hname' : k'.headers.lookup "knockout" with _ | name'
  · rw [hname'] at h; cases h
  · rw [hname'] at h
    dsimp only at h
    rcases hms : st.ko_mapping.lookup name' with _ | msT
    · rw [hms] at h; cases h
    · rw [hms] at h
      dsimp only at h
      cases msT with
      | none =>
        cases h
        have hcond : ∀ m lab, k'.column.get? m = some (some lab) → lab = L →
            name' = name → ([] : List (Nat × Result)).lookup (1 + m) = none :=
          fun _ _ _ _ _ => rfl
        obtain ⟨hI', hU'⟩ := processColumn_inv k'.column 1 cs hcond hI hU
        exact ⟨hI', hU', fun hS => processColumn_some k'.column 1 cs hcond hS⟩
      | some t =>
        dsimp only at h
        rcases hmq : st.miseq.lookup t with _ | msCol'
        · rw [hmq] at h; cases h
        · rw [hmq] at h
          dsimp only at h
          cases h
          have hcond : ∀ m lab, k'.column.get? m = some (some lab) → lab = L →
              name' = name → msCol'.lookup (1 + m) = none := by
            intro m lab hget hlab hnm
            subst hnm
            subst hlab
            rcases hG with hnull | ⟨t0, msCol, hms0, hmq0, H3⟩
            · rw [hnull] at hms; cases hms
            · rw [hms0] at hms
              have ht : t = t0 := by
                have := Option.some.inj hms
                exact (Option.some.inj this).symm
              subst ht
              rw [hmq0] at hmq
              have : msCol' = msCol := (Option.some.inj hmq).symm
              subst this
              have := H3 k' hk' hname' m hget
              rwa [Nat.add_comm] at this
          obtain ⟨hI', hU'⟩ := processColumn_inv k'.column 1 cs hcond hI hU
          exact ⟨hI', hU', fun hS => processColumn_some k'.column 1 cs hcond hS⟩

theorem processKnockout_establish {st : AppState} {sel : List Knockout}
    {L name : String} (hG : nullTarget st sel L name) {k : Knockout} (hk : k ∈ sel)
    (hname : k.headers.lookup "knockout" = some name)
    {j : Nat} (hocc : k.column.get? j = some (some L))
    {cs cs' : List Clone} (h : processKnockout st cs k = some cs') :
    cloneNullSome L name cs' := by
  unfold processKnockout at h
  rw [hname] at h
  dsimp only at h
  rcases hms : st.ko_mapping.lookup name with _ | msT
  · rw [hms] at h; cases h
  · rw [hms] at h
    dsimp only at h
    cases msT with
    | none =>
      cases h
      exact processColumn_establish k.column 1 cs j hocc (fun _ _ _ _ => rfl)
    | some t =>
      dsimp only at h
      rcases hmq : st.miseq.lookup t with _ | msCol'
      · rw [hmq] at h; cases h
      · rw [hmq] at h
        dsimp only at h
        cases h
        apply processColumn_establish k.column 1 cs j hocc
        intro m lab hget hlab
        subst hlab
        rcases hG with hnull | ⟨t0, msCol, hms0, hmq0, H3⟩
        · rw [hnull] at hms; cases hms
        · rw [hms0] at hms
          have ht : t = t0 := by
            have := Option.some.inj hms
            exact (Option.some.inj this).symm
          subst ht
          rw [hmq0] at hmq
          have : msCol' = msCol := (Option.some.inj hmq).symm
          subst this
          have := H3 k hk hname m hget
          rwa [Nat.add_comm] at this

theorem processKnockouts_facts {st : AppState} {sel : List Knockout}
    {L name : String} (hG : nullTarget st sel L name) :
    ∀ (l : List Knockout), (∀ k' ∈ l, k' ∈ sel) → ∀ (cs cs' : List Clone),
      processKnockouts st l cs = some cs' →
      cloneNullInv L name cs → labelsNodup cs →
      cloneNullInv L name cs' ∧ labelsNodup cs'
      ∧ (cloneNullSome L name cs → cloneNullSome L name cs') := by
  intro l
  induction l with
  | nil =>
    intro _ cs cs' h hI hU
    cases h
    exact ⟨hI, hU, fun hS => hS⟩
  | cons k' rest ih =>
    intro hmem cs cs' h hI hU
    unfold processKnockouts at h
    rcases hpk : processKnockout st cs k' with _ | cs2
    · rw [hpk] at h; cases h
    · rw [hpk] at h
      dsimp only at h
      obtain ⟨hI2, hU2, hS2⟩ := processKnockout_inv hG
        (hmem k' (List.mem_cons_self k' rest)) hpk hI hU
      obtain ⟨hI3, hU3, hS3⟩ := ih
        (fun q hq => hmem q (List.mem_cons_of_mem k' hq)) cs2 cs' h hI2 hU2
      exact ⟨hI3, hU3, fun hS => hS3 (hS2 hS)⟩

theorem processKnockouts_append (st : AppState) :
    ∀ (l1 l2 : List Knockout) (cs cs' : List Clone),
      processKnockouts st (l1 ++ l2) cs = some cs' →
      ∃ mid, processKnockouts st l1 cs = some mid
        ∧ processKnockouts st l2 mid = some cs' := by
  intro l1
  induction l1 with
  | nil => intro l2 cs cs' h; exact ⟨cs, rfl, h⟩
  | cons k' rest ih =>
    intro l2 cs cs' h
    rw [List.cons_append] at h
    unfold processKnockouts at h
    rcases hpk : processKnockout st cs k' with _ | cs2
    · rw [hpk] at h; cases h
    · rw [hpk] at h
      dsimp only at h
      obtain ⟨mid, h1, h2⟩ := ih l2 cs2 cs' h
      refine ⟨mid, ?_, h2⟩
      unfold processKnockouts
      rw [hpk]
      exact h1

theorem keyed_snd :
    ∀ (cs : List Clone) (keyed : List ((String × Nat) × Clone)),
      mapOption (fun c => (label_to_key c.label).map (fun key => (key, c))) cs
        = some keyed →
      keyed.map (fun p => p.2) = cs := by
  intro cs
  induction cs with
  | nil =>
    intro keyed h
    rw [mapOption_nil_iff] at h
    subst h
    rfl
  | cons c rest ih =>
    intro keyed h
    obtain ⟨y, ys', hf, hm, rfl⟩ := mapOption_cons_iff.mp h
    obtain ⟨key, _, hy⟩ := Option.map_eq_some'.mp hf
    rw [List.map_cons, ih ys' hm, ← hy]

/-- C8 (amended): for a selected column of the group whose occupied row
`j` (0-based; well index `j+1`) carries label `L`, if the column's knockout
name maps to null — or maps to a target whose sequencing output has no
Result at the row index of any occupied cell labelled `L` among the group's
columns sharing that knockout name (`nullTarget`) — then the clone labelled
`L` in the output of `clones_get_group` exists and carries a present-but-null
entry for that knockout name (rather than an absent one or an error). -/
theorem clones_get_group_null (st : AppState) (g : String) (sel : List Knockout)
    (k : Knockout) (name L : String) (j : Nat) (out : List Clone)
    (hsel : get_group st.samplesheet g = some sel)
    (hk : k ∈ sel)
    (hname : k.headers.lookup "knockout" = some name)
    (hocc : k.column.get? j = some (some L))
    (hG : nullTarget st sel L name)
    (hout : clones_get_group st g = some out) :
    (∃ c ∈ out, c.label = L)
    ∧ ∀ c ∈ out, c.label = L → c.knockouts.lookup name = some none := by
  unfold clones_get_group at hout
  rw [hsel] at hout
  dsimp only at hout
  rcases hpk : processKnockouts st sel [] with _ | csf
  · rw [hpk] at hout; cases hout
  · rw [hpk] at hout
    dsimp only at hout
    rcases hkey : mapOption (fun c => (label_to_key c.label).map (fun key => (key, c))) csf
      with _ | keyed
    · rw [hkey] at hout; cases hout
    · rw [hkey] at hout
      dsimp only at hout
      cases hout
      -- out = (keyed.mergeSort cloneKeyLe).map (·.2) is a permutation of csf
      have hperm : ((keyed.mergeSort cloneKeyLe).map (fun p => p.2)).Perm csf := by
        have h1 := (List.mergeSort_perm keyed cloneKeyLe).map (fun p => p.2)
        rwa [keyed_snd csf keyed hkey] at h1
      -- decompose the selection around k and walk the accumulation
      obtain ⟨sel1, sel2, hseleq⟩ := List.append_of_mem hk
      rw [hseleq] at hpk
      obtain ⟨mid, hmid, hrest⟩ := processKnockouts_append st sel1 (k :: sel2) [] csf hpk
      have hG' : nullTarget st (sel1 ++ k :: sel2) L name := hseleq ▸ hG
      have hmem1 : ∀ q ∈ sel1, q ∈ sel1 ++ k :: sel2 :=
        fun q hq => List.mem_append_left _ hq
      obtain ⟨hI1, hU1, _⟩ := processKnockouts_facts hG' sel1 hmem1 [] mid hmid
        (fun c hc => absurd hc (List.not_mem_nil c)) List.nodup_nil
      unfold processKnockouts at hrest
      rcases hpk2 : processKnockout st mid k with _ | cs2
      · rw [hpk2] at hrest; cases hrest
      · rw [hpk2] at hrest
        dsimp only at hrest
        have hkmem : k ∈ sel1 ++ k :: sel2 :=
          List.mem_append_right _ (List.mem_cons_self k sel2)
        have hS2 : cloneNullSome L name cs2 :=
          processKnockout_establish hG' hkmem hname hocc hpk2
        obtain ⟨hI2, hU2, _⟩ := processKnockout_inv hG' hkmem hpk2 hI1 hU1
        have hmem2 : ∀ q ∈ sel2, q ∈ sel1 ++ k :: sel2 :=
          fun q hq => List.mem_append_right _ (List.mem_cons_of_mem k hq)
        obtain ⟨hI3, hU3, hSp⟩ := processKnockouts_facts hG' sel2 hmem2 cs2 csf hrest hI2 hU2
        have hS3 := hSp hS2
        obtain ⟨c0, hc0, hc0l, hc0k⟩ := hS3
        constructor
        · exact ⟨c0, hperm.mem_iff.mpr hc0, hc0l⟩
        · intro c hc hcl
          have hc' : c ∈ csf := hperm.mem_iff.mp hc
          have : c = c0 := nodup_label_eq hU3 hc' hc0 (hcl.trans hc0l.symm)
          rw [this]
          exact hc0k

/-- C8 counterexample: in `exStateC8` the first column of group "gr" is
selected, its knockout name "g1" maps to target "T", "T"'s output has no
Result at well 3, and the column's occupied row 3 carries label "A1" — the
claim then demands `knockouts["g1"] = null` for clone "A1", but the second
column (same name, same label, row 1) overwrites the entry with the Result
at well 1. -/
theorem clones_get_group_overwrite_cex :
    displayGroup ⟨[("knockout", "g1")], [none, none, some "A1"], ⟨false, false⟩, "gr"⟩
      = some "gr"
    ∧ (⟨[("knockout", "g1")], [none, none, some "A1"], ⟨false, false⟩, "gr"⟩
        : Knockout).column.get? 2 = some (some "A1")
    ∧ exStateC8.ko_mapping.lookup "g1" = some (some "T")
    ∧ exStateC8.miseq.lookup "T" = some [(1, exResult)]
    ∧ ([(1, exResult)] : List (Nat × Result)).lookup 3 = none
    ∧ clones_get_group exStateC8 "gr" = some [⟨"A1", none, [("g1", some exResult)]⟩]
    ∧ some (some exResult) ≠ some (none : Option Result) := by
  refine ⟨by decide, by decide, by decide, by decide, by decide, ?_, by decide⟩
  show some (([((("A", 1) : String × Nat),
      (⟨"A1", none, [("g1", some exResult)]⟩ : Clone))].mergeSort cloneKeyLe).map
        (fun p => p.2))
    = some [⟨"A1", none, [("g1", some exResult)]⟩]
  rw [List.mergeSort_singleton]
  rfl

theorem clones_get_group_null_witness :
    clones_get_group exStateC8W "gr" = some [⟨"A1", none, [("g1", none)]⟩]
    ∧ (⟨"A1", none, [("g1", none)]⟩ : Clone).knockouts.lookup "g1" = some none := by
  have hout : clones_get_group exStateC8W "gr"
      = some [⟨"A1", none, [("g1", none)]⟩] := by
    show some (([((("A", 1) : String × Nat),
        (⟨"A1", none, [("g1", none)]⟩ : Clone))].mergeSort cloneKeyLe).map
          (fun p => p.2))
      = some [⟨"A1", none, [("g1", none)]⟩]
    rw [List.mergeSort_singleton]
    rfl
  refine ⟨hout, ?_⟩
  exact (clones_get_group_null exStateC8W "gr"
      [⟨[("knockout", "g1")], [none, some "A1"], ⟨false, false⟩, "gr"⟩]
      ⟨[("knockout", "g1")], [none, some "A1"], ⟨false, false⟩, "gr"⟩
      "g1" "A1" 1 [⟨"A1", none, [("g1", none)]⟩]
      (by decide) (by decide) (by decide) (by decide)
      (Or.inl (by decide)) hout).2
    ⟨"A1", none, [("g1", none)]⟩ (List.mem_singleton.mpr rfl) rfl

/-! ## Helper lemmas: the grid locator -/

/-- The maximum anchor area over a list of anchors. -/
def maxAreas (t : Table) (l : List (Nat × Nat)) : Nat :=
  l.foldr (fun a m => max (anchorArea t a) m) 0

/-- The maximum of `_grow_selection`'s area over all anchors of the table. -/
def maxAnchorArea (t : Table) : Nat := maxAreas t (anchors t)

theorem locStep_eq (t : Table) (b : Best) (a : Nat × Nat) :
    locStep t b a = if anchorArea t a > bestArea b
      then some (a.2, a.1, (growSelection t a.2 a.1).1, (growSelection t a.2 a.1).2)
      else b := rfl

theorem bestArea_mk (t : Table) (a : Nat × Nat) :
    bestArea (some (a.2, a.1, (growSelection t a.2 a.1).1, (growSelection t a.2 a.1).2))
      = anchorArea t a := rfl

theorem foldA_no_beat (t : Table) :
    ∀ (l : List (Nat × Nat)) (b : Best),
      (∀ a ∈ l, anchorArea t a ≤ bestArea b) → l.foldl (locStep t) b = b := by
  intro l
  induction l with
  | nil => intro b _; rfl
  | cons a rest ih =>
    intro b hle
    rw [List.foldl_cons, locStep_eq,
      if_neg (by simpa using hle a (List.mem_cons_self a rest))]
    exact ih b (fun x hx => hle x (List.mem_cons_of_mem a hx))

theorem maxAreas_cons (t : Table) (a : Nat × Nat) (l : List (Nat × Nat)) :
    maxAreas t (a :: l) = max (anchorArea t a) (maxAreas t l) := rfl

theorem le_maxAreas (t : Table) :
    ∀ (l : List (Nat × Nat)) (a : Nat × Nat), a ∈ l → anchorArea t a ≤ maxAreas t l := by
  intro l
  induction l with
  | nil => intro a ha; cases ha
  | cons x rest ih =>
    intro a ha
    rw [maxAreas_cons]
    rcases List.mem_cons.mp ha with rfl | hm
    · exact le_max_left _ _
    · exact le_trans (ih a hm) (le_max_right _ _)

theorem maxAreas_zero (t : Table) :
    ∀ (l : List (Nat × Nat)), (∀ a ∈ l, anchorArea t a = 0) → maxAreas t l = 0 := by
  intro l
  induction l with
  | nil => intro _; rfl
  | cons x rest ih =>
    intro h
    rw [maxAreas_cons, h x (List.mem_cons_self x rest),
      ih (fun a ha => h a (List.mem_cons_of_mem x ha))]
    rfl

theorem foldA_first_argmax (t : Table) :
    ∀ (l : List (Nat × Nat)) (b : Best), bestArea b < maxAreas t l →
      ∃ l1 a l2, l = l1 ++ a :: l2
        ∧ anchorArea t a = maxAreas t l
        ∧ (∀ x ∈ l1, anchorArea t x < maxAreas t l)
        ∧ l.foldl (locStep t) b
          = some (a.2, a.1, (growSelection t a.2 a.1).1, (growSelection t a.2 a.1).2) := by
  intro l
  induction l with
  | nil => intro b hb; exact absurd hb (by simp [maxAreas])
  | cons a0 rest ih =>
    intro b hb
    rw [maxAreas_cons] at hb
    by_cases hA : anchorArea t a0 = maxAreas t (a0 :: rest)
    · refine ⟨[], a0, rest, rfl, hA, fun x hx => absurd hx (List.not_mem_nil x), ?_⟩
      rw [List.foldl_cons, locStep_eq, if_pos (by
        rw [hA, maxAreas_cons]
        exact lt_of_lt_of_le hb (le_refl _))]
      apply foldA_no_beat
      intro x hx
      rw [bestArea_mk, hA, maxAreas_cons]
      exact le_trans (le_maxAreas t rest x hx) (le_max_right _ _)
    · have hle : anchorArea t a0 ≤ maxAreas t (a0 :: rest) := by
        rw [maxAreas_cons]; exact le_max_left _ _
      have hlt : anchorArea t a0 < maxAreas t (a0 :: rest) := lt_of_le_of_ne hle hA
      have hM : maxAreas t (a0 :: rest) = maxAreas t rest := by
        rw [maxAreas_cons]
        rcases max_choice (anchorArea t a0) (maxAreas t rest) with h | h
        · rw [maxAreas_cons] at hlt hA
          exact absurd h.symm hA
        · exact h
      have hb' : bestArea (locStep t b a0) < maxAreas t rest := by
        rw [locStep_eq]
        split
        · rw [bestArea_mk, ← hM]
          exact hlt
        · rw [← hM, maxAreas_cons]
          exact lt_of_lt_of_le hb (le_refl _)
      obtain ⟨l1, a, l2, heq, hA2, hlt2, hfold⟩ := ih (locStep t b a0) hb'
      refine ⟨a0 :: l1, a, l2, by rw [List.cons_append, heq], by rw [hM]; exact hA2,
        ?_, by rw [List.foldl_cons]; exact hfold⟩
      intro x hx
      rcases List.mem_cons.mp hx with rfl | hm
      · exact hlt
      · rw [hM]
        exact hlt2 x hm

theorem growGo_cons_eq (r : Nat) (col : List Cell) (rest : List (List Cell))
    (w h : Nat) :
    growGo r (col :: rest) w h
      = if runLength (col.drop r) = 0 ∨ runLength (col.drop r) < h then (w, h)
        else growGo r rest (w + 1)
          (min (if h = 0 then runLength (col.drop r) else h)
            (runLength (col.drop r))) := rfl

theorem growGo_pos_height (r : Nat) :
    ∀ (cols : List (List Cell)) (w h : Nat), 0 < h →
      (growGo r cols w h).1 ≤ w + cols.length ∧ (growGo r cols w h).2 = h
      ∧ w ≤ (growGo r cols w h).1 := by
  intro cols
  induction cols with
  | nil => intro w h _; exact ⟨by simp [growGo], rfl, le_refl w⟩
  | cons col rest ih =>
    intro w h hh
    rw [growGo_cons_eq]
    split
    · exact ⟨by simp, rfl, le_refl w⟩
    · rename_i hcur
      push_neg at hcur
      have hmin : min (if h = 0 then runLength (col.drop r) else h)
          (runLength (col.drop r)) = h := by
        rw [if_neg (by omega), min_eq_left hcur.2]
      rw [hmin]
      obtain ⟨h1, h2, h3⟩ := ih (w + 1) h hh
      refine ⟨?_, h2, ?_⟩
      · simp only [List.length_cons]
        omega
      · omega

theorem runLength_le (cells : List Cell) : runLength cells ≤ cells.length := by
  unfold runLength
  induction cells with
  | nil => simp
  | cons c rest ih =>
    cases h : Cell.isIndicator c <;> simp [List.takeWhile_cons, h] <;> omega

theorem growSelection_nil {t : Table} {r c : Nat} (h : t.drop c = []) :
    growSelection t r c = (0, 0) := by
  unfold growSelection
  rw [h]
  rfl

theorem growSelection_cons {t : Table} {r c : Nat} {col : List Cell}
    {rest : List (List Cell)} (h : t.drop c = col :: rest) :
    growSelection t r c
      = if runLength (col.drop r) = 0 then (0, 0)
        else growGo r rest 1 (runLength (col.drop r)) := by
  have h0 : growSelection t r c = growGo r (col :: rest) 0 0 := by
    unfold growSelection
    rw [h]
  rw [h0, growGo_cons_eq]
  by_cases hcur : runLength (col.drop r) = 0
  · rw [if_pos (Or.inl hcur), if_pos hcur]
  · rw [if_neg (by
      rintro (h1 | h2)
      · exact hcur h1
      · omega), if_neg hcur, if_pos rfl, Nat.min_self]

/-- Area bound for a uniform table: a rectangle grown from column `c` fits
in the remaining columns times the uniform column length. -/
theorem anchorArea_le (t : Table) (L : Nat) (huni : ∀ col ∈ t, col.length = L)
    (c r : Nat) : anchorArea t (c, r) ≤ (t.length - c) * L := by
  unfold anchorArea
  rcases hdrop : t.drop c with _ | ⟨col, rest⟩
  · rw [growSelection_nil hdrop]
    simp
  · rw [growSelection_cons hdrop]
    have hcolmem : col ∈ t := by
      have : col ∈ t.drop c := by rw [hdrop]; exact List.mem_cons_self col rest
      exact List.mem_of_mem_drop this
    have hlen : (t.drop c).length = t.length - c := List.length_drop c t
    rw [hdrop] at hlen
    simp only [List.length_cons] at hlen
    by_cases hcur : runLength (col.drop r) = 0
    · rw [if_pos hcur]
      simp
    · rw [if_neg hcur]
      have hpos : 0 < runLength (col.drop r) := Nat.pos_of_ne_zero hcur
      obtain ⟨h1, h2, _⟩ := growGo_pos_height r rest 1 (runLength (col.drop r)) hpos
      have hdl : (col.drop r).length = col.length - r := List.length_drop r col
      have hcl : runLength (col.drop r) ≤ L := by
        have := runLength_le (col.drop r)
        have := huni col hcolmem
        omega
      calc (growGo r rest 1 (runLength (col.drop r))).1
            * (growGo r rest 1 (runLength (col.drop r))).2
          = (growGo r rest 1 (runLength (col.drop r))).1
            * runLength (col.drop r) := by rw [h2]
        _ ≤ (1 + rest.length) * L := Nat.mul_le_mul (by omega) hcl
        _ ≤ (t.length - c) * L := Nat.mul_le_mul (by omega) (le_refl L)

theorem mem_anchorsFrom :
    ∀ (suffix : List (List Cell)) (c0 : Nat) (a : Nat × Nat),
      a ∈ anchorsFrom suffix c0
      ↔ ∃ i, i < suffix.length ∧ a.1 = c0 + i ∧ a.2 < (suffix.getD i []).length := by
  intro suffix
  induction suffix with
  | nil => intro c0 a; simp [anchorsFrom]
  | cons col rest ih =>
    intro c0 a
    unfold anchorsFrom
    rw [List.mem_append]
    constructor
    · intro h
      rcases h with h1 | h2
      · obtain ⟨r, hr, ha⟩ := List.mem_map.mp h1
        refine ⟨0, by simp, ?_, ?_⟩
        · rw [← ha]
          simp
        · rw [← ha]
          simpa using List.mem_range.mp hr
      · obtain ⟨i, hi, h1, h2⟩ := (ih (c0 + 1) a).mp h2
        refine ⟨i + 1, by simpa using hi, by omega, by simpa using h2⟩
    · rintro ⟨i, hi, h1, h2⟩
      cases i with
      | zero =>
        left
        refine List.mem_map.mpr ⟨a.2, List.mem_range.mpr (by simpa using h2), ?_⟩
        have ha1 : a.1 = c0 := by omega
        rw [← ha1]
      | succ j =>
        right
        refine (ih (c0 + 1) a).mpr ⟨j, by simpa using hi, by omega, by simpa using h2⟩

theorem runLength_cons (cell : Cell) (xs : List Cell) :
    runLength (cell :: xs) = if cell.isIndicator then runLength xs + 1 else 0 := by
  cases h : cell.isIndicator <;> simp [runLength, List.takeWhile_cons, h]

theorem anchorArea_ne_zero_iff (t : Table) (c r : Nat) :
    anchorArea t (c, r) ≠ 0
    ↔ c < t.length ∧ r < (t.getD c []).length
      ∧ ((t.getD c []).getD r .blank).isIndicator = true := by
  by_cases hc : c < t.length
  · have hdrop : t.drop c = t.getD c [] :: t.drop (c + 1) := by
      rw [List.getD_eq_getElem t [] hc]
      exact List.drop_eq_getElem_cons hc
    unfold anchorArea
    rw [growSelection_cons hdrop]
    by_cases hr : r < (t.getD c []).length
    · have hdr : (t.getD c []).drop r
          = (t.getD c []).getD r .blank :: (t.getD c []).drop (r + 1) := by
        rw [List.getD_eq_getElem (t.getD c []) .blank hr]
        exact List.drop_eq_getElem_cons hr
      rw [hdr, runLength_cons]
      cases hind : ((t.getD c []).getD r .blank).isIndicator
      · simp only [Bool.false_eq_true, if_false, if_pos rfl]
        constructor
        · intro h0; exact absurd rfl h0
        · rintro ⟨_, _, habs⟩; exact habs.elim
      · simp only [if_true]
        rw [if_neg (by omega)]
        obtain ⟨_, h2, h3⟩ := growGo_pos_height (c, r).2 (t.drop (c + 1)) 1
          (runLength ((t.getD c []).drop (r + 1)) + 1) (by omega)
        simp only [ne_eq]
        rw [h2]
        constructor
        · intro _
          exact ⟨hc, hr, trivial⟩
        · intro _
          have : 0 < (growGo (c, r).2 (t.drop (c + 1)) 1
              (runLength ((t.getD c []).drop (r + 1)) + 1)).1 := by omega
          positivity
    · have hdr : (t.getD c []).drop r = [] :=
        List.drop_eq_nil_of_le (by omega)
      rw [hdr]
      have hrl : runLength ([] : List Cell) = 0 := rfl
      rw [if_pos hrl]
      constructor
      · intro h0; exact absurd rfl h0
      · rintro ⟨_, habs, _⟩; exact absurd habs hr
  · have hdrop : t.drop c = [] := List.drop_eq_nil_of_le (by omega)
    unfold anchorArea
    rw [growSelection_nil hdrop]
    constructor
    · intro h0; exact absurd rfl h0
    · rintro ⟨habs, _, _⟩; exact absurd habs hc

theorem locStep_none {t : Table} {b : Best} {a : Nat × Nat}
    (h : locStep t b a = none) : b = none ∧ anchorArea t a = 0 := by
  rw [locStep_eq] at h
  split at h
  · cases h
  · rename_i hng
    subst h
    refine ⟨rfl, ?_⟩
    simp only [bestArea, gt_iff_lt, not_lt, Nat.le_zero] at hng
    exact hng

theorem fold_none_iff (t : Table) :
    ∀ (l : List (Nat × Nat)) (b : Best),
      l.foldl (locStep t) b = none ↔ b = none ∧ ∀ a ∈ l, anchorArea t a = 0 := by
  intro l
  induction l with
  | nil => intro b; simp
  | cons a0 rest ih =>
    intro b
    rw [List.foldl_cons, ih]
    constructor
    · rintro ⟨hstep, hrest⟩
      obtain ⟨hb, ha0⟩ := locStep_none hstep
      exact ⟨hb, fun a ha => by
        rcases List.mem_cons.mp ha with rfl | hm
        · exact ha0
        · exact hrest a hm⟩
    · rintro ⟨hb, hall⟩
      subst hb
      have hstep : locStep t none a0 = none := by
        rw [locStep_eq, if_neg (by
          simp only [bestArea, gt_iff_lt, not_lt, Nat.le_zero]
          exact hall a0 (List.mem_cons_self a0 rest))]
      rw [hstep]
      exact ⟨rfl, fun a ha => hall a (List.mem_cons_of_mem a0 ha)⟩

theorem locateGo_cons_eq (t : Table) (col : List Cell) (rest : List (List Cell))
    (c : Nat) (b : Best) :
    locateGo t (col :: rest) c b
      = if (rest.length + 1) * col.length < bestArea b then b
        else locateGo t rest (c + 1)
          (((List.range col.length).map (fun r => (c, r))).foldl (locStep t) b) := rfl

theorem anchorsFrom_cons_eq (col : List Cell) (rest : List (List Cell)) (c : Nat) :
    anchorsFrom (col :: rest) c
      = ((List.range col.length).map (fun r => (c, r))) ++ anchorsFrom rest (c + 1) := rfl

theorem locateGo_none_iff (t : Table) :
    ∀ (suffix : List (List Cell)) (c : Nat) (b : Best),
      locateGo t suffix c b = none
      ↔ b = none ∧ ∀ a ∈ anchorsFrom suffix c, anchorArea t a = 0 := by
  intro suffix
  induction suffix with
  | nil => intro c b; simp [locateGo, anchorsFrom]
  | cons col rest ih =>
    intro c b
    rw [locateGo_cons_eq]
    split
    · rename_i hpr
      have hbne : b ≠ none := by
        intro h0
        subst h0
        simp only [bestArea] at hpr
        omega
      constructor
      · intro h0; exact absurd h0 hbne
      · rintro ⟨h0, _⟩; exact absurd h0 hbne
    · rw [ih (c + 1), fold_none_iff, anchorsFrom_cons_eq]
      constructor
      · rintro ⟨⟨hb, hrow⟩, hrest⟩
        refine ⟨hb, fun a ha => ?_⟩
        rcases List.mem_append.mp ha with h1 | h2
        · exact hrow a h1
        · exact hrest a h2
      · rintro ⟨hb, hall⟩
        exact ⟨⟨hb, fun a ha => hall a (List.mem_append_left _ ha)⟩,
          fun a ha => hall a (List.mem_append_right _ ha)⟩

theorem locateGo_eq_fold (t : Table) (L : Nat) (huni : ∀ col ∈ t, col.length = L) :
    ∀ (suffix : List (List Cell)) (c : Nat) (b : Best), t.drop c = suffix →
      locateGo t suffix c b = (anchorsFrom suffix c).foldl (locStep t) b := by
  intro suffix
  induction suffix with
  | nil => intro c b _; rfl
  | cons col rest ih =>
    intro c b hdrop
    have hcol : col ∈ t := by
      have : col ∈ t.drop c := by rw [hdrop]; exact List.mem_cons_self col rest
      exact List.mem_of_mem_drop this
    have hrest : t.drop (c + 1) = rest := by
      have h1 : (t.drop c).drop 1 = rest := by rw [hdrop]; rfl
      rw [List.drop_drop] at h1
      exact h1
    have hlensuf : t.length - c = rest.length + 1 := by
      have := List.length_drop c t
      rw [hdrop] at this
      simp only [List.length_cons] at this
      omega
    rw [locateGo_cons_eq]
    split
    · rename_i hpr
      have hskip : ∀ a ∈ anchorsFrom (col :: rest) c, anchorArea t a ≤ bestArea b := by
        intro a ha
        obtain ⟨i, _, ha1, _⟩ := (mem_anchorsFrom (col :: rest) c a).mp ha
        have hb1 : anchorArea t a ≤ (t.length - a.1) * L := by
          have := anchorArea_le t L huni a.1 a.2
          simpa using this
        have hb2 : (t.length - a.1) * L ≤ (t.length - c) * L :=
          Nat.mul_le_mul (by omega) (le_refl L)
        have hb3 : (t.length - c) * L < bestArea b := by
          rw [hlensuf, ← huni col hcol]
          exact hpr
        omega
      rw [foldA_no_beat t _ b hskip]
    · rw [anchorsFrom_cons_eq, List.foldl_append]
      exact ih (c + 1) _ hrest

/-- C5 (amended): `_locate_cells` returns `NotFound` exactly when the table
has no indicator cell (any table); and for tables whose columns all share
one length, the returned rectangle's area `width*height` equals the maximum
of `_grow_selection` over all anchors, with ties resolved to the first
anchor in search order (only strictly larger areas replace the best).  For
jagged tables the pruning can discard columns that still hold the true
maximum (see the counterexample). -/
theorem locateCells_spec (t : Table) :
    (locateCells t = none ↔ ∀ col ∈ t, ∀ cell ∈ col, cell.isIndicator = false)
    ∧ ∀ L, (∀ col ∈ t, col.length = L) →
        ∀ rect, locateCells t = some rect →
          anchorArea t (rect.left, rect.top) = maxAnchorArea t
          ∧ growSelection t rect.top rect.left
              = (rect.right - rect.left, rect.bottom - rect.top)
          ∧ ∃ l1 l2, anchors t = l1 ++ (rect.left, rect.top) :: l2
              ∧ ∀ x ∈ l1, anchorArea t x < maxAnchorArea t := by
  constructor
  · -- NotFound iff no indicator cell, for arbitrary tables
    have hnone : locateCells t = none ↔ locateGo t t 0 none = none := by
      unfold locateCells
      cases hgo : locateGo t t 0 none with
      | none => simp
      | some q =>
        rcases q with ⟨r, c, w, h⟩
        simp
    rw [hnone, locateGo_none_iff t t 0 none]
    have hanch : (∀ a ∈ anchorsFrom t 0, anchorArea t a = 0)
        ↔ ∀ col ∈ t, ∀ cell ∈ col, cell.isIndicator = false := by
      constructor
      · intro hall col hcol cell hcell
        obtain ⟨c, hc, hgc⟩ := List.mem_iff_getElem.mp hcol
        obtain ⟨r, hr, hgr⟩ := List.mem_iff_getElem.mp hcell
        by_contra hind
        have hind' : cell.isIndicator = true := by
          cases hi : cell.isIndicator
          · exact absurd hi hind
          · rfl
        have hmem : ((c, r) : Nat × Nat) ∈ anchorsFrom t 0 := by
          rw [mem_anchorsFrom]
          refine ⟨c, hc, by simp, ?_⟩
          rw [List.getD_eq_getElem t [] hc, hgc]
          exact hr
        have hz := hall (c, r) hmem
        have : anchorArea t (c, r) ≠ 0 := by
          rw [anchorArea_ne_zero_iff]
          refine ⟨hc, ?_, ?_⟩
          · rw [List.getD_eq_getElem t [] hc, hgc]
            exact hr
          · rw [List.getD_eq_getElem t [] hc, hgc,
              List.getD_eq_getElem col Cell.blank hr, hgr]
            exact hind'
        exact this hz
      · intro hno a ha
        by_contra hnz
        have ha' : anchorArea t (a.1, a.2) ≠ 0 := by
          simpa using hnz
        rw [anchorArea_ne_zero_iff] at ha'
        obtain ⟨hc, hr, hind⟩ := ha'
        have hcolmem : t.getD a.1 [] ∈ t := by
          rw [List.getD_eq_getElem t [] hc]
          exact List.getElem_mem hc
        have hcellmem : (t.getD a.1 []).getD a.2 .blank ∈ t.getD a.1 [] := by
          rw [List.getD_eq_getElem (t.getD a.1 []) Cell.blank hr]
          exact List.getElem_mem hr
        have := hno _ hcolmem _ hcellmem
        rw [this] at hind
        cases hind
    constructor
    · rintro ⟨_, hall⟩
      exact hanch.mp hall
    · intro hno
      exact ⟨rfl, hanch.mpr hno⟩
  · -- area maximality and first-tie, for uniform tables
    intro L huni rect hrect
    unfold locateCells at hrect
    rcases hgo : locateGo t t 0 none with _ | q
    · rw [hgo] at hrect; cases hrect
    · rcases q with ⟨r, c, w, h⟩
      rw [hgo] at hrect
      dsimp only at hrect
      have hrect' : rect = ⟨r, c, r + h, c + w⟩ := (Option.some.inj hrect).symm
      have hfold : (anchors t).foldl (locStep t) none = some (r, c, w, h) := by
        unfold anchors
        rw [← locateGo_eq_fold t L huni t 0 none (List.drop_zero t)]
        exact hgo
      have hmaxpos : 0 < maxAnchorArea t := by
        by_contra hmp
        have hz : maxAreas t (anchors t) = 0 := by
          unfold maxAnchorArea at hmp
          omega
        have : (anchors t).foldl (locStep t) none = none := by
          apply foldA_no_beat
          intro a ha
          have := le_maxAreas t (anchors t) a ha
          rw [hz] at this
          simpa [bestArea] using this
        rw [this] at hfold
        cases hfold
      obtain ⟨l1, a, l2, heq, hA, hlt, hfold2⟩ :=
        foldA_first_argmax t (anchors t) none (by
          show bestArea none < maxAreas t (anchors t)
          simpa [bestArea] using hmaxpos)
      rw [hfold2] at hfold
      have ha2 : a.2 = r := congrArg (fun q : Nat × Nat × Nat × Nat => q.1)
        (Option.some.inj hfold)
      have ha1 : a.1 = c := congrArg (fun q : Nat × Nat × Nat × Nat => q.2.1)
        (Option.some.inj hfold)
      have hgw : (growSelection t a.2 a.1).1 = w :=
        congrArg (fun q : Nat × Nat × Nat × Nat => q.2.2.1) (Option.some.inj hfold)
      have hgh : (growSelection t a.2 a.1).2 = h :=
        congrArg (fun q : Nat × Nat × Nat × Nat => q.2.2.2) (Option.some.inj hfold)
      have haeq : a = (c, r) := by
        rw [← ha1, ← ha2]
      have hleft : rect.left = c := by rw [hrect']
      have htop : rect.top = r := by rw [hrect']
      refine ⟨?_, ?_, ?_⟩
      · rw [hleft, htop, ← haeq, hA]
        rfl
      · rw [hleft, htop, hrect']
        show growSelection t r c = (c + w - c, r + h - r)
        rw [show c + w - c = w by omega, show r + h - r = r + h - r from rfl,
          show r + h - r = h by omega]
        have : growSelection t a.2 a.1 = (w, h) := by
          rcases hg : growSelection t a.2 a.1 with ⟨gw, gh⟩
          rw [hg] at hgw hgh
          simp only at hgw hgh
          rw [hgw, hgh]
        rw [haeq] at this
        simpa using this
      · refine ⟨l1, l2, ?_, ?_⟩
        · rw [hleft, htop, ← haeq]
          exact heq
        · intro x hx
          exact hlt x hx

/-- C5 counterexample: on the jagged table the pruning `break` fires after
column 0 (bound `(3-1) * len(column 1) = 2 <` best area 5), so the search
never reaches column 2, whose anchor (2, 0) grows a strictly larger area 6:
the returned rectangle's area (width 1 × height 5 = 5) is NOT the maximum
of `_grow_selection` over all anchors. -/
theorem locate_pruning_cex :
    locateCells exTableJagged = some ⟨0, 0, 5, 1⟩
    ∧ (2, 0) ∈ anchors exTableJagged
    ∧ anchorArea exTableJagged (2, 0) = 6
    ∧ 1 * 5 < 6 := by decide

theorem locateCells_spec_witness :
    (∀ col ∈ exTableUniform, col.length = 3)
    ∧ locateCells exTableUniform = some ⟨1, 1, 3, 3⟩
    ∧ anchorArea exTableUniform (1, 1) = maxAnchorArea exTableUniform
    ∧ growSelection exTableUniform 1 1 = (3 - 1, 3 - 1) := by
  refine ⟨by decide, by decide, ?_, ?_⟩
  · exact ((locateCells_spec exTableUniform).2 3 (by decide) ⟨1, 1, 3, 3⟩ (by decide)).1
  · exact ((locateCells_spec exTableUniform).2 3 (by decide) ⟨1, 1, 3, 3⟩ (by decide)).2.1
